import Mathlib

/-!
Verification of the `substr` crate (`src/lib.rs`): a compact collection of
overlapping strings.  The crate packs a list of input strings into one shared
byte buffer (`index_string`) plus a span table `(offset : u32, length : u8)`,
exploiting exact containment and suffix/prefix overlap.

Shallow embedding conventions:
* Rust `String` / `&str` values are byte lists (`Str := List Nat`); Rust strings
  are valid UTF-8, and every operation the crate performs on them is modelled
  at the byte level.  `char` boundaries are modelled through the UTF-8
  continuation-byte test used by `str::is_char_boundary`.
* machine-integer casts (`as u8`, `as u32`) are modelled by explicit `% 2^8`
  and `% 2^32` (`u8cast`, `u32cast`).
* panicking code paths (`unwrap` on `None`) and potential non-termination are
  modelled by `Option`: `none` means the Rust code panics or loops forever.
* loops whose termination is a theorem rather than a syntactic fact are given
  explicit fuel, always called with enough fuel that the fuel-exhaustion
  branch is unreachable (noted at each definition).
-/

set_option autoImplicit false

/-- Byte strings: a Rust `String` / `&str` as its underlying byte list. -/
abbrev Str := List Nat

/-- Total length in bytes of a list of input strings. -/
def totalLen (v : List Str) : Nat := (v.map List.length).sum

/-- Model of a Rust `as u8` cast. -/
def u8cast (x : Nat) : Nat := x % 256

/-- Model of a Rust `as u32` cast. -/
def u32cast (x : Nat) : Nat := x % 4294967296

/-- Model of the Rust slice `&s[a..b]`. -/
def sliceB (s : Str) (a b : Nat) : Str := (s.drop a).take (b - a)

/-- Whether a byte is a UTF-8 continuation byte (`0b10xxxxxx`). -/
def isContinuationByte (b : Nat) : Bool := 128 ≤ b && b < 192

/-- Model of `str::is_char_boundary`: true at 0 and at the total length,
and at any index holding a non-continuation byte. -/
def isCharBoundary (s : Str) (i : Nat) : Bool :=
  if i = 0 then true
  else
    match s[i]? with
    | none => i == s.length
    | some b => !isContinuationByte b

/-- Model of the loop `while !self.string.is_char_boundary(start) { start -= 1 }`
in `SubStr::before`: move an index down to the nearest char boundary.
Index 0 is always a boundary, so the loop terminates structurally. -/
def adjustDown (s : Str) : Nat → Nat
  | 0 => 0
  | i + 1 => if isCharBoundary s (i + 1) then i + 1 else adjustDown s i

/-- Fuelled model of the loop `while !self.string.is_char_boundary(end) { end += 1 }`
in `SubStr::after`.  Any start index `i ≤ s.length` reaches a boundary at
`s.length` at the latest, so fuel `s.length + 1 - i` never runs out there. -/
def adjustUpFuel (s : Str) : Nat → Nat → Nat
  | 0, i => i
  | fuel + 1, i => if isCharBoundary s i then i else adjustUpFuel s fuel (i + 1)

/-- Move an index up to the nearest char boundary (see `adjustUpFuel`). -/
def adjustUp (s : Str) (i : Nat) : Nat := adjustUpFuel s (s.length + 1 - i) i

/-- Byte positions of the elements of `s.char_indices()`: for valid UTF-8 these
are exactly the positions holding a non-continuation byte. -/
def charStarts (s : Str) : List Nat :=
  (List.range s.length).filter (fun i => !isContinuationByte (s.getD i 0))

/-- Model of the crate's `split_after_char(s, after)`: split `s` after `after`
characters, returning `none` for `after = 0` or when `s` has at most `after`
characters (`s.char_indices().skip(after).next()` is exhausted). -/
def splitAfterChar (s : Str) (after : Nat) : Option (Str × Str) :=
  if after = 0 then none
  else
    match (charStarts s)[after]? with
    | some i => some (s.take i, s.drop i)
    | none => none

/-- Model of the crate's `Error` enum.  The `Io`, `Utf8Error` and
`TryFromSliceError` pass-through variants exist only for the optional serde
collaborator and are never produced by the algorithm, so they are not
modelled. -/
inductive Error where
  | StringTooLong (observedMax : Nat)
  | NoMaxStringLen
deriving DecidableEq, Repr

/-- Model of the crate's `SubStr`: the packed collection, a span table plus
one shared storage string. -/
structure SubStr where
  spans : List (Nat × Nat)
  string : Str
deriving DecidableEq, Repr

/-- Model of `SubStr::len`. -/
def SubStr.len (c : SubStr) : Nat := c.spans.length

/-- Model of `SubStr::storage_len`. -/
def SubStr.storage_len (c : SubStr) : Nat := c.string.length

/-- Model of `SubStr::is_empty`. -/
def SubStr.is_empty (c : SubStr) : Bool := c.spans.isEmpty

/-- Model of `SubStr::get`: `(index < self.len()).then_some(&self.string[o..o+l])`.
`bool::then_some` evaluates its argument eagerly, so `self.spans[index]` is
indexed before the bounds test can act: an out-of-range `index` panics,
modelled by the outer `none`.  A Rust return value `v` is modelled as
`some v`, so a successful lookup is `some (some slice)` and a Rust `None`
would be `some none` (which in fact is never reached). -/
def SubStr.get (c : SubStr) (index : Nat) : Option (Option Str) :=
  match c.spans[index]? with
  | some (o, l) =>
    some (if index < c.len then some (sliceB c.string o (o + l)) else none)
  | none => none

/-- Model of `SubStr::before`.  The Rust
`if position < len { 0 } else { position - len }` is truncated `Nat`
subtraction, and the boundary loop is `adjustDown`. -/
def SubStr.before (c : SubStr) (index len : Nat) : Option Str :=
  match c.spans[index]? with
  | some (position, _) =>
    some (sliceB c.string (adjustDown c.string (position - len)) position)
  | none => none

/-- Model of `SubStr::after`. -/
def SubStr.after (c : SubStr) (index len : Nat) : Option Str :=
  match c.spans[index]? with
  | some (position, length) =>
    let e0 := if c.string.length ≤ position + length + len
              then c.string.length else position + length + len
    some (sliceB c.string (position + length) (adjustUp c.string e0))
  | none => none

/-- Model of the crate's `Builder` working state.  The `silent` flag only
gates `println!` progress output and never affects the data. -/
structure Builder where
  vec : List Str
  contained_in : List (Option (Nat × Nat))
  index_string : Str
  spans : List (Option (Nat × Nat))
  silent : Bool
  build : Bool
deriving DecidableEq, Repr

/-- The builder state both constructors produce on success. -/
def mkBuilder (v : List Str) : Builder :=
  { vec := v
    contained_in := List.replicate v.length none
    spans := List.replicate v.length none
    index_string := []
    silent := true
    build := false }

/-- Model of `impl TryFrom<Vec<String>> for Builder`.  The Rust code computes
`value.iter().map(|s| s.len()).max().unwrap()`: on an empty vector `max()` is
`None` and `unwrap()` panics, modelled by the outer `none`. -/
def Builder.try_from (value : List Str) : Option (Except Error Builder) :=
  match (value.map List.length).max? with
  | none => none
  | some maxLen =>
    if 255 < maxLen then some (Except.error (Error.StringTooLong maxLen))
    else some (Except.ok (mkBuilder value))

/-- Model of `Builder::from_iter` (specialised to a list of byte strings):
an empty sequence yields `Err(NoMaxStringLen)` via `ok_or`. -/
def Builder.from_iter (v : List Str) : Except Error Builder :=
  match (v.map List.length).max? with
  | none => Except.error Error.NoMaxStringLen
  | some maxLen =>
    if 255 < maxLen then Except.error (Error.StringTooLong maxLen)
    else Except.ok (mkBuilder v)

/-- First occurrence (smallest start) of `pat` in `text`, counting positions
`i` with `i + pat.length ≤ text.length`.  `Builder::find_substrings` obtains
this from `AhoCorasick::find_overlapping_iter`, whose matches come in order
of end position, so the first reported occurrence of each pattern is the
leftmost one. -/
def firstOcc (pat text : Str) : Option Nat :=
  (List.range (text.length + 1)).find? (fun i => pat.isPrefixOf (text.drop i))

/-- One text of `Builder::find_substrings`: scanning text `i`, every pattern
`p ≠ i` that occurs in it and has no container yet is recorded as contained in
`i` at its leftmost occurrence (`mat.start() as u8`).  Distinct patterns
touch distinct cells, so iterating patterns in index order is equivalent to
iterating the automaton's matches. -/
def findSubstringsInner (vec : List Str) (i : Nat)
    (cont : List (Option (Nat × Nat))) : List (Option (Nat × Nat)) :=
  (List.range vec.length).foldl
    (fun cont p =>
      if p ≠ i && (cont.getD p none).isNone then
        match firstOcc (vec.getD p []) (vec.getD i []) with
        | some st => cont.set p (some (i, u8cast st))
        | none => cont
      else cont)
    cont

/-- Model of `Builder::find_substrings` (phase 1/4): texts are scanned in
ascending id order, so the first discovered container wins. -/
def Builder.findSubstrings (b : Builder) : Builder :=
  let cont :=
    (List.range b.vec.length).foldl
      (fun cont i => findSubstringsInner b.vec i cont) b.contained_in
  { b with contained_in := cont }

/-- The ids stored under key `key` in the `beginnings` hash map of
`Builder::find_partial_substrings`: ids without a containment link one of
whose char-boundary split points yields `key` as the front part.  Ids are
pushed in ascending id order; distinct split points of one string yield
front parts of distinct lengths, so each id occurs at most once per key. -/
def beginningsIds (vec : List Str) (cont : List (Option (Nat × Nat)))
    (key : Str) : List Nat :=
  (List.range vec.length).filter (fun i =>
    (cont.getD i none).isNone &&
    (List.range' 1 ((vec.getD i []).length - 1)).any (fun sp =>
      match splitAfterChar (vec.getD i []) sp with
      | some (b, _) => b == key
      | none => false))

/-- Model of the crate's private `NextStr` struct. -/
structure NextStr where
  index : Nat
  position : Nat
  tail : Str
deriving DecidableEq, Repr

/-- Model of `Builder::find_next_string`: scan the split points of
`vec[index]` in ascending order (so its suffixes from longest to shortest);
the first suffix that is a `beginnings` key owning a still-unplaced id wins.
`spans[j]? = some none` is the in-range unplaced test (`self.spans[j]` in Rust
always indexes in range, as `beginnings` only holds ids below `vec.len()`).
The tail is `vec[j].strip_prefix(end).unwrap()`: for every `j` in
`beginnings end` the key `end` is a front part of `vec[j]`, so the `unwrap`
never panics and the tail is `vec[j]` with its first `end.length` bytes
removed. -/
def findNextString (vec : List Str) (spans : List (Option (Nat × Nat)))
    (index position : Nat) (beginnings : Str → List Nat) : Option NextStr :=
  (List.range' 1 ((vec.getD index []).length - 1)).findSome? (fun sp =>
    match splitAfterChar (vec.getD index []) sp with
    | some (_, e) =>
      match (beginnings e).find? (fun j => decide (spans[j]? = some none)) with
      | some j => some ⟨j, position - e.length, (vec.getD j []).drop e.length⟩
      | none => none
    | none => none)

/-- Fuelled model of the chain loop
`while let Some(next) = self.find_next_string(..)` in
`Builder::find_partial_substrings`.  Every iteration places a previously
unplaced id, so the loop runs at most `spans.length` times; it is always
called with fuel `spans.length + 1`, making the fuel-exhaustion branch
unreachable. -/
def chainLoop (vec : List Str) (beginnings : Str → List Nat) :
    Nat → List (Option (Nat × Nat)) → Str → Nat → Nat →
    List (Option (Nat × Nat)) × Str × Nat
  | 0, spans, istr, _, position => (spans, istr, position)
  | fuel + 1, spans, istr, index, position =>
    match findNextString vec spans index position beginnings with
    | none => (spans, istr, position)
    | some nxt =>
      let len := (vec.getD nxt.index []).length
      chainLoop vec beginnings fuel
        (spans.set nxt.index (some (u32cast nxt.position, u8cast len)))
        (istr ++ nxt.tail) nxt.index (nxt.position + len)

/-- One outer iteration of `Builder::find_partial_substrings`: skip
contained or already-placed ids, otherwise place the string at the cursor
and follow its overlap chain.  State is `(spans, index_string, cursor)`. -/
def findPartStep (vec : List Str) (cont : List (Option (Nat × Nat)))
    (beginnings : Str → List Nat)
    (st : List (Option (Nat × Nat)) × Str × Nat) (i : Nat) :
    List (Option (Nat × Nat)) × Str × Nat :=
  if (cont.getD i none).isNone then
    if (st.1.getD i none).isSome then st
    else
      chainLoop vec beginnings (st.1.length + 1)
        (st.1.set i (some (u32cast st.2.2, u8cast (vec.getD i []).length)))
        (st.2.1 ++ vec.getD i []) i (st.2.2 + (vec.getD i []).length)
  else st

/-- Model of `Builder::find_partial_substrings` (phase 2/4): in input order,
place every uncontained unplaced string at the buffer cursor and follow its
overlap chain.  The cursor `position` starts at 0 and persists across outer
iterations, mirroring the Rust local. -/
def Builder.findPartSubstrings (b : Builder) : Builder :=
  let st :=
    (List.range b.vec.length).foldl
      (findPartStep b.vec b.contained_in (beginningsIds b.vec b.contained_in))
      (b.spans, b.index_string, 0)
  { b with spans := st.1, index_string := st.2.1 }

/-- Model of `Builder::join_loose_strings` (phase 3/4): append every string
with neither containment link nor span at the end of the storage string. -/
def Builder.joinLooseStrings (b : Builder) : Builder :=
  let st :=
    (List.range b.vec.length).foldl
      (fun (st : List (Option (Nat × Nat)) × Str) i =>
        let (spans, istr) := st
        if (b.contained_in.getD i none).isNone && (spans.getD i none).isNone then
          (spans.set i (some (u32cast istr.length, u8cast (b.vec.getD i []).length)),
           istr ++ b.vec.getD i [])
        else st)
      (b.spans, b.index_string)
  { b with spans := st.1, index_string := st.2 }

/-- Number of unresolved spans, i.e.
`self.spans.iter().filter(|s| s.is_none()).count()`. -/
def countNone (spans : List (Option (Nat × Nat))) : Nat :=
  spans.countP (fun s => s.isNone)

/-- One id of a `Builder::join_substrings` pass: a contained id whose span
is still unresolved but whose container's span is resolved inherits
`(container_pos + start, own length)`. -/
def joinSubstringsStep (vec : List Str) (cont : List (Option (Nat × Nat)))
    (spans : List (Option (Nat × Nat))) (i : Nat) : List (Option (Nat × Nat)) :=
  match cont.getD i none with
  | some (cid, start) =>
    if (spans.getD i none).isNone then
      match spans.getD cid none with
      | some (cpos, _) =>
        spans.set i (some (u32cast (cpos + start), u8cast (vec.getD i []).length))
      | none => spans
    else spans
  | none => spans

/-- One pass of `Builder::join_substrings`: ids are visited in ascending
order and assignments made earlier in the same pass are visible to later
ids, exactly as in the Rust in-place mutation. -/
def joinSubstringsPass (vec : List Str) (cont : List (Option (Nat × Nat)))
    (spans : List (Option (Nat × Nat))) : List (Option (Nat × Nat)) :=
  (List.range vec.length).foldl (joinSubstringsStep vec cont) spans

/-- Fuelled model of the loop
`while self.spans.iter().filter(|s| s.is_none()).count() > 0` in
`Builder::join_substrings`.  A pass that resolves nothing leaves the state
unchanged, so the Rust loop then spins forever: that case is `none`.  A pass
that makes progress lowers `countNone` by at least one, so starting fuel
`countNone spans` keeps `fuel ≥ countNone` invariant and the fuel-exhaustion
branch (`fuel = 0` with unresolved spans and progress still possible) is
unreachable. -/
def joinSubstringsLoop (vec : List Str) (cont : List (Option (Nat × Nat))) :
    Nat → List (Option (Nat × Nat)) → Option (List (Option (Nat × Nat)))
  | 0, spans => if countNone spans = 0 then some spans else none
  | fuel + 1, spans =>
    if countNone spans = 0 then some spans
    else
      if countNone (joinSubstringsPass vec cont spans) < countNone spans then
        joinSubstringsLoop vec cont fuel (joinSubstringsPass vec cont spans)
      else none

/-- Model of `Builder::join_substrings` (phase 4/4); `none` models the Rust
loop running forever. -/
def Builder.joinSubstrings (b : Builder) : Option Builder :=
  (joinSubstringsLoop b.vec b.contained_in (countNone b.spans) b.spans).map
    (fun spans => { b with spans := spans })

/-- Model of `Builder::build_only`: run the four phases unless they already
ran, then set the `build` flag.  `none` models phase 4 spinning forever. -/
def Builder.build_only (b : Builder) : Option Builder :=
  if b.build then some b
  else
    (b.findSubstrings.findPartSubstrings.joinLooseStrings.joinSubstrings).map
      (fun b2 => { b2 with build := true })

/-- Model of `Builder::build` (named apart because the Lean structure already
has a `build` field projection): build if needed, then freeze the result.
The `s.unwrap()` on each span never panics after a successful `build_only`
(all spans are resolved there); `getD (0, 0)` stands for it. -/
def buildSubStr (b : Builder) : Option SubStr :=
  (b.build_only).map
    (fun b2 => { spans := b2.spans.map (fun s => s.getD (0, 0)), string := b2.index_string })

/-- Model of `Builder::verify`: build if needed, then re-derive every input
string from its span, skipping unresolved spans (the Rust loop only checks
`if let Some((b, e))`). -/
def Builder.verify (b : Builder) : Option Bool :=
  (b.build_only).map
    (fun b2 =>
      (List.range b2.vec.length).all (fun i =>
        match b2.spans.getD i none with
        | some (o, l) => b2.vec.getD i [] == sliceB b2.index_string o (o + l)
        | none => true))

/-- Total length of the strings that are both placed (span assigned) and
uncontained: every byte of `index_string` is contributed by such a string,
which is the accounting behind the no-waste bound. -/
def placedWeight (vec : List Str) (cont spans : List (Option (Nat × Nat))) : Nat :=
  ∑ i ∈ (Finset.range vec.length).filter
      (fun i => (spans.getD i none).isSome = true ∧ cont.getD i none = none),
    (vec.getD i []).length

/-- Accounting invariant maintained by phases 2-4: the span table keeps its
length and the storage string never exceeds the weight of the placed
uncontained strings. -/
def AccInv (vec : List Str) (cont spans : List (Option (Nat × Nat)))
    (istr : Str) : Prop :=
  spans.length = vec.length ∧ istr.length ≤ placedWeight vec cont spans

/-- Soundness of the containment table produced by phase 1: every link
`(t, s)` records a genuine leftmost occurrence (`s` is its `u8` cast). -/
def ContSound (vec : List Str) (cont : List (Option (Nat × Nat))) : Prop :=
  ∀ p t s, cont[p]? = some (some (t, s)) →
    t < vec.length ∧
    ∃ k, firstOcc (vec.getD p []) (vec.getD t []) = some k ∧ s = u8cast k

/-- Soundness of the span table: every resolved span has the string's exact
length, stays in the buffer, and slices back to the original string. -/
def SpanSound (vec : List Str) (spans : List (Option (Nat × Nat)))
    (istr : Str) : Prop :=
  ∀ i o l, spans[i]? = some (some (o, l)) →
    l = (vec.getD i []).length ∧ o + l ≤ istr.length ∧
    sliceB istr o (o + l) = vec.getD i []

/-- One step of the containment-link relation restricted to unresolved ids:
an unresolved id points to its recorded container. -/
def followLink (cont spans : List (Option (Nat × Nat))) (i : Nat) : Option Nat :=
  match spans.getD i none with
  | some _ => none
  | none => (cont.getD i none).map (fun p => p.1)

/-- Iterate `followLink` a given number of steps. -/
def iterLink (cont spans : List (Option (Nat × Nat))) : Nat → Nat → Option Nat
  | 0, i => some i
  | k + 1, i => (followLink cont spans i).bind (iterLink cont spans k)

/-- Decidable cycle test for the containment-link relation restricted to
unresolved ids: some id returns to itself in 1..n steps.  As every node has
at most one outgoing link, this detects exactly the cycles among n ids. -/
def hasCycleB (cont spans : List (Option (Nat × Nat))) (n : Nat) : Bool :=
  (List.range n).any (fun i =>
    (List.range' 1 n).any (fun k => iterLink cont spans k i == some i))

/-- The builder state right after the loose-append phase (end of phase 3). -/
def buildPhases123 (v : List Str) : Builder :=
  ((mkBuilder v).findSubstrings).findPartSubstrings.joinLooseStrings

/-! Theorems for the claims. -/

/-- An in-range `get`: the eagerly evaluated `spans[index]` succeeds and the
`then_some` bounds test passes. -/
theorem SubStr.get_in_range (c : SubStr) (index o l : Nat)
    (h : c.spans[index]? = some (o, l)) :
    c.get index = some (some (sliceB c.string o (o + l))) := by
  have hlt : index < c.len := by
    by_contra hge
    rw [List.getElem?_eq_none (Nat.le_of_not_lt hge)] at h
    cases h
  unfold SubStr.get
  rw [h]
  show some (if index < c.len then some (sliceB c.string o (o + l)) else none)
      = some (some (sliceB c.string o (o + l)))
  rw [if_pos hlt]

/-- C3 counterexample: the claim says that for an index at or above the
element count, `get` returns an absent value (`None`) rather than failing,
but `bool::then_some` evaluates its argument eagerly, so `self.spans[index]`
is indexed before the bounds test takes effect and panics.  On a one-element
collection, `get 5` panics (the outer `none`) and in particular does not
return the Rust `None` (`some none`). -/
theorem c3_counterexample :
    (SubStr.mk [(0, 2)] [97, 98, 99]).get 5 = none ∧
    (SubStr.mk [(0, 2)] [97, 98, 99]).get 5 ≠ some none :=
  ⟨rfl, by decide⟩

/-- C3 as amended: for every collection and every index at or above the
element count, `get` panics — `then_some`'s argument is evaluated eagerly,
indexing `spans[index]` out of bounds — rather than returning `None`; for
every index below the count it returns the buffer slice of that element's
span. -/
theorem c3_get_panics_out_of_range (c : SubStr) (index : Nat) :
    (c.len ≤ index → c.get index = none) ∧
    (∀ o l, c.spans[index]? = some (o, l) →
      c.get index = some (some (sliceB c.string o (o + l)))) := by
  constructor
  · intro h
    unfold SubStr.get
    rw [List.getElem?_eq_none h]
  · intro o l h
    exact SubStr.get_in_range c index o l h

/-- Witness for `c3_get_panics_out_of_range` at a concrete collection. -/
theorem c3_get_panics_out_of_range_witness :
    (SubStr.mk [(0, 2)] [97, 98, 99]).get 5 = none ∧
    (SubStr.mk [(0, 2)] [97, 98, 99]).get 0 =
      some (some (sliceB [97, 98, 99] 0 (0 + 2))) :=
  ⟨(c3_get_panics_out_of_range (SubStr.mk [(0, 2)] [97, 98, 99]) 5).1 (by decide),
   (c3_get_panics_out_of_range (SubStr.mk [(0, 2)] [97, 98, 99]) 0).2 0 2 (by decide)⟩

/-- C4 counterexample: the claim says conversion from a vector of strings
fails with `NoMaxStringLen` on empty input, but `TryFrom<Vec<String>>`
computes `.max().unwrap()`, which panics on an empty vector (modelled by
`none`), so no `NoMaxStringLen` error is returned on that entry point. -/
theorem c4_counterexample :
    Builder.try_from ([] : List Str) = none ∧
    ¬ Builder.try_from ([] : List Str) = some (Except.error Error.NoMaxStringLen) := by
  refine ⟨rfl, fun h => ?_⟩
  rw [show Builder.try_from ([] : List Str) = none from rfl] at h
  exact Option.noConfusion h

/-- C4 as amended: constructing a `Builder` from an iterator over an empty
sequence fails with `NoMaxStringLen` and produces no builder, while
conversion from an empty vector of strings panics (models as `none`),
likewise producing no builder but no `NoMaxStringLen` error either. -/
theorem c4_empty_input :
    Builder.from_iter ([] : List Str) = Except.error Error.NoMaxStringLen ∧
    Builder.try_from ([] : List Str) = none :=
  ⟨rfl, rfl⟩

/-- C9: any input sequence containing a string longer than 255 bytes makes
both construction entry points fail with `StringTooLong` carrying the
observed maximum length, and no builder (hence no collection) is produced. -/
theorem c9_string_too_long (v : List Str) (s : Str) (hs : s ∈ v)
    (hlong : 255 < s.length) :
    ∃ m, (v.map List.length).max? = some m ∧ 255 < m ∧
      Builder.try_from v = some (Except.error (Error.StringTooLong m)) ∧
      Builder.from_iter v = Except.error (Error.StringTooLong m) := by
  have hne : v ≠ [] := fun h => by subst h; cases hs
  obtain ⟨m, hm⟩ : ∃ m, (v.map List.length).max? = some m := by
    cases hmx : (v.map List.length).max? with
    | none =>
      rw [List.max?_eq_none_iff, List.map_eq_nil_iff] at hmx
      exact absurd hmx hne
    | some m => exact ⟨m, rfl⟩
  have hmem := (List.max?_eq_some_iff (fun a => le_refl a) (fun a b => max_choice a b)
    (fun a b c => Nat.max_le)).mp hm
  have hsm : s.length ≤ m := hmem.2 s.length (List.mem_map_of_mem List.length hs)
  have h255 : 255 < m := lt_of_lt_of_le hlong hsm
  refine ⟨m, hm, h255, ?_, ?_⟩
  · simp [Builder.try_from, hm, h255]
  · simp [Builder.from_iter, hm, h255]

/-- Witness for `c9_string_too_long` on a 256-byte input string. -/
theorem c9_string_too_long_witness :
    List.replicate 256 97 ∈ [List.replicate 256 97] ∧
    255 < (List.replicate 256 97 : Str).length ∧
    ∃ m, ([List.replicate 256 97].map List.length).max? = some m ∧ 255 < m ∧
      Builder.try_from [List.replicate 256 97] =
        some (Except.error (Error.StringTooLong m)) ∧
      Builder.from_iter [List.replicate 256 97] =
        Except.error (Error.StringTooLong m) :=
  ⟨List.mem_singleton.mpr rfl, by rw [List.length_replicate]; norm_num,
   c9_string_too_long [List.replicate 256 97] (List.replicate 256 97)
     (List.mem_singleton.mpr rfl) (by rw [List.length_replicate]; norm_num)⟩

/-- C10: once `build_only` has succeeded, running it again succeeds and
leaves the builder completely unchanged, so `build` yields the same
collection however many times `build_only` ran first. -/
theorem c10_build_only_idempotent (b b2 : Builder) (h : b.build_only = some b2) :
    b2.build_only = some b2 ∧ buildSubStr b2 = buildSubStr b := by
  have hb2 : b2.build = true := by
    unfold Builder.build_only at h
    cases hb : b.build with
    | true =>
      rw [hb] at h
      simp only [if_true] at h
      cases h
      exact hb
    | false =>
      rw [hb] at h
      simp only [Bool.false_eq_true, if_false] at h
      rcases Option.map_eq_some'.mp h with ⟨b3, _, rfl⟩
      rfl
  have hidem : b2.build_only = some b2 := by
    unfold Builder.build_only
    rw [hb2]
    simp
  refine ⟨hidem, ?_⟩
  unfold buildSubStr
  rw [hidem, h]

/-- Witness for `c10_build_only_idempotent` on a one-string input. -/
theorem c10_build_only_idempotent_witness :
    (mkBuilder [[97]]).build_only =
      some (Builder.mk [[97]] [none] [97] [some (0, 1)] true true) ∧
    (Builder.mk [[97]] [none] [97] [some (0, 1)] true true).build_only =
      some (Builder.mk [[97]] [none] [97] [some (0, 1)] true true) ∧
    buildSubStr (Builder.mk [[97]] [none] [97] [some (0, 1)] true true) =
      buildSubStr (mkBuilder [[97]]) := by
  have h : (mkBuilder [[97]]).build_only =
      some (Builder.mk [[97]] [none] [97] [some (0, 1)] true true) := by decide
  exact ⟨h, (c10_build_only_idempotent _ _ h).1, (c10_build_only_idempotent _ _ h).2⟩

/-- C1 counterexample: the duplicate input `["a", "a"]` is a non-empty
sequence of strings of at most 255 bytes, yet `find_substrings` records the
two ids as contained in each other, phase 4's fixpoint makes no progress,
and the build never terminates (modelled by `none`), so it does not succeed
as the claim states. -/
theorem c1_counterexample :
    ([[97], [97]] : List Str) ≠ [] ∧
    (∀ s ∈ ([[97], [97]] : List Str), s.length ≤ 255) ∧
    buildSubStr (mkBuilder [[97], [97]]) = none := by
  decide

/-- C2 counterexample: with inputs `"aba"`, `"baX"`, `"aY"` and `"aba"`
placed, the chain step selects id 1 through the overlap `"ba"` (length 2:
the tail `"X"` has length 1 out of 3), although the shorter suffix `"a"`
(split point 2, overlap length 1) also matches the recorded front part of
the still-unplaced id 2 — the shortest matching overlap is NOT selected;
the ascending split-point scan tries the longest suffix first. -/
theorem c2_counterexample :
    findNextString [[97, 98, 97], [98, 97, 88], [97, 89]]
        [some (0, 3), none, none] 0 3
        (beginningsIds [[97, 98, 97], [98, 97, 88], [97, 89]]
          (List.replicate 3 none)) = some ⟨1, 1, [88]⟩ ∧
    splitAfterChar [97, 98, 97] 2 = some ([97, 98], [97]) ∧
    2 ∈ beginningsIds [[97, 98, 97], [98, 97, 88], [97, 89]]
        (List.replicate 3 none) [97] ∧
    ([some (0, 3), none, none] : List (Option (Nat × Nat)))[2]? = some none ∧
    ([97] : Str).length < ([98, 97] : Str).length := by
  decide

/-- C5 counterexample: in `["bc", "ab"]` the suffix `"b"` of input 1 equals
the one-byte front of input 0 (a boundary overlap between two input
strings), yet the chaining order (input order, id 0 first) never exploits
it: the built storage is `"bcab"`, exactly the 4-byte input total, not
strictly less. -/
theorem c5_counterexample :
    List.drop 1 ([97, 98] : Str) = List.take 1 ([98, 99] : Str) ∧
    buildSubStr (mkBuilder [[98, 99], [97, 98]]) =
      some (SubStr.mk [(0, 2), (2, 2)] [98, 99, 97, 98]) ∧
    (SubStr.mk [(0, 2), (2, 2)] [98, 99, 97, 98]).storage_len =
      totalLen [[98, 99], [97, 98]] := by
  decide

/-- C7 counterexample: build `["é", "a"]` (bytes `[195, 169]` and `[97]`).
`before(1, 1)` clamps to byte 1, which falls inside the two-byte character,
and the boundary adjustment moves DOWN, returning the 2-byte slice `"é"` —
strictly more than `maxLen = 1` bytes, so "at most maxLen bytes" fails. -/
theorem c7_counterexample :
    buildSubStr (mkBuilder [[195, 169], [97]]) =
      some (SubStr.mk [(0, 2), (2, 1)] [195, 169, 97]) ∧
    (SubStr.mk [(0, 2), (2, 1)] [195, 169, 97]).before 1 1 = some [195, 169] ∧
    1 < ([195, 169] : Str).length := by
  decide

/-! Helper lemmas about the split-point scan. -/

/-- A successful `findSome?` decomposes the list into a failing front part,
the first hit, and a rest. -/
theorem findSome?_eq_some_split {α β : Type} (f : α → Option β) :
    ∀ (l : List α) (b : β), l.findSome? f = some b →
      ∃ l1 x l2, l = l1 ++ x :: l2 ∧ f x = some b ∧ ∀ y ∈ l1, f y = none := by
  intro l
  induction l with
  | nil => intro b h; simp [List.findSome?] at h
  | cons a l ih =>
    intro b h
    rw [List.findSome?_cons] at h
    cases hfa : f a with
    | some c =>
      rw [hfa] at h
      cases h
      exact ⟨[], a, l, rfl, hfa, by simp⟩
    | none =>
      rw [hfa] at h
      obtain ⟨l1, x, l2, rfl, hfx, hnone⟩ := ih b h
      refine ⟨a :: l1, x, l2, rfl, hfx, ?_⟩
      intro y hy
      rcases List.mem_cons.mp hy with rfl | hy
      · exact hfa
      · exact hnone y hy

/-- Entries of `charStarts` are below the string length. -/
theorem charStarts_lt_length (s : Str) {a ia : Nat}
    (ha : (charStarts s)[a]? = some ia) : ia < s.length := by
  obtain ⟨h, rfl⟩ := List.getElem?_eq_some.mp ha
  have hmem : (charStarts s)[a] ∈ charStarts s := List.getElem_mem h
  unfold charStarts at hmem
  exact List.mem_range.mp (List.mem_of_mem_filter hmem)

/-- The char-start positions are listed in strictly increasing order. -/
theorem charStarts_strictMono (s : Str) {a b ia ib : Nat}
    (ha : (charStarts s)[a]? = some ia) (hb : (charStarts s)[b]? = some ib)
    (hab : a < b) : ia < ib := by
  have hp : List.Pairwise (· < ·) (charStarts s) :=
    List.Pairwise.sublist (List.filter_sublist _) (List.pairwise_lt_range _)
  obtain ⟨hla, rfl⟩ := List.getElem?_eq_some.mp ha
  obtain ⟨hlb, rfl⟩ := List.getElem?_eq_some.mp hb
  exact List.pairwise_iff_getElem.mp hp a b hla hlb hab

/-- Characterisation of a successful `splitAfterChar`. -/
theorem splitAfterChar_eq_some {s : Str} {sp : Nat} {pre e : Str}
    (h : splitAfterChar s sp = some (pre, e)) :
    sp ≠ 0 ∧ ∃ i, (charStarts s)[sp]? = some i ∧ pre = s.take i ∧ e = s.drop i := by
  unfold splitAfterChar at h
  by_cases hsp : sp = 0
  · rw [if_pos hsp] at h; cases h
  · rw [if_neg hsp] at h
    cases hi : (charStarts s)[sp]? with
    | none => rw [hi] at h; cases h
    | some i =>
      rw [hi] at h
      cases h
      exact ⟨hsp, i, rfl, rfl, rfl⟩

/-- C2 as amended: in the chain-extension step the suffixes of the placed
string are scanned from LONGEST to shortest (the split-point scan is
ascending, and a later split point yields a shorter suffix), so the overlap
selected by `find_next_string` is such that no strictly longer char-boundary
suffix matches a recorded front part of any still-unplaced id. -/
theorem c2_longest_overlap_selected (vec : List Str)
    (spans : List (Option (Nat × Nat))) (index position : Nat)
    (beginnings : Str → List Nat) (nxt : NextStr)
    (h : findNextString vec spans index position beginnings = some nxt) :
    ∃ sp pre e,
      splitAfterChar (vec.getD index []) sp = some (pre, e) ∧
      (beginnings e).find? (fun j => decide (spans[j]? = some none)) = some nxt.index ∧
      nxt.position = position - e.length ∧
      nxt.tail = (vec.getD nxt.index []).drop e.length ∧
      ∀ sp2 pre2 e2,
        splitAfterChar (vec.getD index []) sp2 = some (pre2, e2) →
        e.length < e2.length →
        ∀ j ∈ beginnings e2, ¬ spans[j]? = some none := by
  unfold findNextString at h
  obtain ⟨l1, sp, l2, heq, hsp, hnone⟩ := findSome?_eq_some_split _ _ _ h
  split at hsp
  next pre e hsplit =>
    split at hsp
    next j hfind =>
      cases hsp
      refine ⟨sp, pre, e, hsplit, hfind, rfl, rfl, ?_⟩
      intro sp2 pre2 e2 hsplit2 hlen j2 hj2 hun
      obtain ⟨hsp0, i, hi, -, he⟩ := splitAfterChar_eq_some hsplit
      obtain ⟨hsp20, i2, hi2, -, he2⟩ := splitAfterChar_eq_some hsplit2
      have hilen : i < (vec.getD index []).length := charStarts_lt_length _ hi
      have hi2len : i2 < (vec.getD index []).length := charStarts_lt_length _ hi2
      -- longer suffix means earlier byte position, hence earlier split point
      have hii : i2 < i := by
        by_contra hcon
        push_neg at hcon
        have : (vec.getD index []).length - i2 ≤ (vec.getD index []).length - i :=
          Nat.sub_le_sub_left hcon _
        rw [he, he2, List.length_drop, List.length_drop] at hlen
        omega
      have hsp2sp : sp2 < sp := by
        by_contra hcon
        push_neg at hcon
        rcases Nat.lt_or_ge sp sp2 with hlt | hge
        · exact absurd (charStarts_strictMono _ hi hi2 hlt) (by omega)
        · have heqsp : sp = sp2 := le_antisymm hcon hge
          subst heqsp
          rw [hi] at hi2
          cases hi2
          omega
      -- the front part of the scan is the initial segment of the range
      have hm : (vec.getD index []).length - 1 = l1.length + (l2.length + 1) := by
        have := congrArg List.length heq
        simpa using this
      have hra := List.range'_append 1 l1.length
        ((vec.getD index []).length - 1 - l1.length) 1
      rw [show ((vec.getD index []).length - 1 - l1.length) + l1.length
            = (vec.getD index []).length - 1 from by omega] at hra
      obtain ⟨hl1, hrest⟩ :=
        List.append_inj (hra.trans heq) (by rw [List.length_range'])
      have hspval : sp = 1 + l1.length := by
        cases hn : ((vec.getD index []).length - 1 - l1.length) with
        | zero => rw [hn] at hrest; cases hrest
        | succ n2 =>
          rw [hn, List.range'_succ] at hrest
          have := List.head_eq_of_cons_eq hrest
          omega
      have hsp2mem : sp2 ∈ l1 := by
        rw [← hl1, List.mem_range']
        exact ⟨sp2 - 1, by omega, by omega⟩
      -- so the scan already failed at sp2: no unplaced id under that key
      have hfnone := hnone sp2 hsp2mem
      split at hfnone
      next pre2x e2x hsplit2x =>
        rw [hsplit2] at hsplit2x
        injection hsplit2x with hpair
        injection hpair with hpre2 he2x
        subst hpre2
        subst he2x
        split at hfnone
        next j3 hfind2 => exact Option.noConfusion hfnone
        next hfind2 =>
          have hnp := List.find?_eq_none.mp hfind2 j2 hj2
          simp only [decide_eq_true_eq] at hnp
          exact hnp hun
      next hsplit2x =>
        rw [hsplit2] at hsplit2x
        exact Option.noConfusion hsplit2x
    next hfind => exact Option.noConfusion hsp
  next hsplit => exact Option.noConfusion hsp

/-- Witness for `c2_longest_overlap_selected` on the `c2_counterexample`
state: the selected link is id 1 through the 2-byte overlap `"ba"`, and no
strictly longer suffix matches an unplaced id. -/
theorem c2_longest_overlap_selected_witness :
    findNextString [[97, 98, 97], [98, 97, 88], [97, 89]]
        [some (0, 3), none, none] 0 3
        (beginningsIds [[97, 98, 97], [98, 97, 88], [97, 89]]
          (List.replicate 3 none)) = some ⟨1, 1, [88]⟩ ∧
    ∃ sp pre e,
      splitAfterChar ([[97, 98, 97], [98, 97, 88], [97, 89]].getD 0 []) sp
        = some (pre, e) ∧
      (beginningsIds [[97, 98, 97], [98, 97, 88], [97, 89]]
          (List.replicate 3 none) e).find?
        (fun j => decide (([some (0, 3), none, none] :
          List (Option (Nat × Nat)))[j]? = some none)) = some 1 ∧
      (1 : Nat) = 3 - e.length ∧
      ([88] : Str) = ([[97, 98, 97], [98, 97, 88], [97, 89]].getD 1 []).drop e.length ∧
      ∀ sp2 pre2 e2,
        splitAfterChar ([[97, 98, 97], [98, 97, 88], [97, 89]].getD 0 []) sp2
          = some (pre2, e2) →
        e.length < e2.length →
        ∀ j ∈ beginningsIds [[97, 98, 97], [98, 97, 88], [97, 89]]
            (List.replicate 3 none) e2,
          ¬ ([some (0, 3), none, none] : List (Option (Nat × Nat)))[j]? = some none := by
  have h : findNextString [[97, 98, 97], [98, 97, 88], [97, 89]]
      [some (0, 3), none, none] 0 3
      (beginningsIds [[97, 98, 97], [98, 97, 88], [97, 89]]
        (List.replicate 3 none)) = some ⟨1, 1, [88]⟩ := by decide
  exact ⟨h, c2_longest_overlap_selected _ _ _ _ _ _ h⟩

/-! Helper lemmas about char-boundary adjustment. -/

/-- Index 0 is always a char boundary. -/
theorem isCharBoundary_zero (s : Str) : isCharBoundary s 0 = true := by
  simp [isCharBoundary]

/-- The total length is always a char boundary. -/
theorem isCharBoundary_length (s : Str) : isCharBoundary s s.length = true := by
  unfold isCharBoundary
  by_cases h : s.length = 0
  · rw [if_pos h]
  · rw [if_neg h, List.getElem?_eq_none (le_refl _)]
    simp

/-- The downward adjustment never moves up. -/
theorem adjustDown_le (s : Str) (i : Nat) : adjustDown s i ≤ i := by
  induction i with
  | zero => simp [adjustDown]
  | succ n ih =>
    unfold adjustDown
    by_cases h : isCharBoundary s (n + 1) = true
    · rw [if_pos h]
    · rw [if_neg h]
      exact le_trans ih (Nat.le_succ n)

/-- The downward adjustment stops on a char boundary. -/
theorem adjustDown_boundary (s : Str) (i : Nat) :
    isCharBoundary s (adjustDown s i) = true := by
  induction i with
  | zero => exact isCharBoundary_zero s
  | succ n ih =>
    unfold adjustDown
    by_cases h : isCharBoundary s (n + 1) = true
    · rw [if_pos h]; exact h
    · rw [if_neg h]; exact ih

/-- The downward adjustment stops at the nearest boundary: everything
strictly between the result and the start index is a non-boundary. -/
theorem adjustDown_greatest (s : Str) (i : Nat) :
    ∀ j, adjustDown s i < j → j ≤ i → isCharBoundary s j = false := by
  induction i with
  | zero => intro j h1 h2; omega
  | succ n ih =>
    intro j h1 h2
    unfold adjustDown at h1
    by_cases h : isCharBoundary s (n + 1) = true
    · rw [if_pos h] at h1; omega
    · rw [if_neg h] at h1
      by_cases hj : j = n + 1
      · subst hj
        simpa using h
      · exact ih j h1 (by omega)

/-- Full characterisation of the upward adjustment, provided the fuel covers
the distance to the end of the string. -/
theorem adjustUpFuel_spec (s : Str) :
    ∀ fuel i, s.length + 1 ≤ i + fuel → i ≤ s.length →
      i ≤ adjustUpFuel s fuel i ∧ adjustUpFuel s fuel i ≤ s.length ∧
      isCharBoundary s (adjustUpFuel s fuel i) = true ∧
      ∀ j, i ≤ j → j < adjustUpFuel s fuel i → isCharBoundary s j = false := by
  intro fuel
  induction fuel with
  | zero => intro i h1 h2; omega
  | succ n ih =>
    intro i h1 h2
    unfold adjustUpFuel
    by_cases h : isCharBoundary s i = true
    · rw [if_pos h]
      exact ⟨le_refl _, h2, h, fun j hj1 hj2 => by omega⟩
    · rw [if_neg h]
      have hi : i ≠ s.length := fun he => h (he ▸ isCharBoundary_length s)
      obtain ⟨a1, a2, a3, a4⟩ := ih (i + 1) (by omega) (by omega)
      refine ⟨by omega, a2, a3, ?_⟩
      intro j hj1 hj2
      by_cases hji : j = i
      · subst hji
        simpa using h
      · exact a4 j (by omega) hj2

/-- Characterisation of `adjustUp` for start indices within the string. -/
theorem adjustUp_spec (s : Str) (i : Nat) (h : i ≤ s.length) :
    i ≤ adjustUp s i ∧ adjustUp s i ≤ s.length ∧
    isCharBoundary s (adjustUp s i) = true ∧
    ∀ j, i ≤ j → j < adjustUp s i → isCharBoundary s j = false :=
  adjustUpFuel_spec s (s.length + 1 - i) i (by omega) h

/-- C7 as amended: for a span within bounds whose two edges lie on char
boundaries (as the spans of a built collection do), `before` returns the
slice from the nearest char boundary at or below `position - maxLen` up to
the span start, and `after` returns the slice from the span end up to the
nearest char boundary at or above the clamp `min (end + maxLen) (buffer
length)`.  Both results stay inside the buffer and both their edges are
char boundaries, so no multi-byte character is split; but the result may be
LONGER than `maxLen` bytes when the clamp position falls inside a character
(the adjustment walks outward, away from the span). -/
theorem c7_before_after_boundary_safe (c : SubStr) (index maxLen pos l : Nat)
    (hspan : c.spans[index]? = some (pos, l))
    (hbound : pos + l ≤ c.string.length)
    (hpos : isCharBoundary c.string pos = true)
    (hend : isCharBoundary c.string (pos + l) = true) :
    (∃ s, c.before index maxLen = some (sliceB c.string s pos) ∧
       s ≤ pos - maxLen ∧ s ≤ pos ∧ pos ≤ c.string.length ∧
       isCharBoundary c.string s = true ∧
       ∀ j, s < j → j ≤ pos - maxLen → isCharBoundary c.string j = false) ∧
    (∃ e, c.after index maxLen = some (sliceB c.string (pos + l) e) ∧
       pos + l ≤ e ∧ e ≤ c.string.length ∧
       isCharBoundary c.string e = true ∧
       ∀ j, min (pos + l + maxLen) c.string.length ≤ j → j < e →
         isCharBoundary c.string j = false) := by
  constructor
  · refine ⟨adjustDown c.string (pos - maxLen), ?_, adjustDown_le _ _,
      le_trans (adjustDown_le _ _) (Nat.sub_le _ _), le_trans (Nat.le_add_right _ _) hbound,
      adjustDown_boundary _ _, adjustDown_greatest _ _⟩
    simp only [SubStr.before, hspan]
  · have he0min :
        (if c.string.length ≤ pos + l + maxLen then c.string.length
         else pos + l + maxLen) = min (pos + l + maxLen) c.string.length := by
      rw [Nat.min_def]
      split <;> split <;> omega
    have he0le : min (pos + l + maxLen) c.string.length ≤ c.string.length :=
      Nat.min_le_right _ _
    have he0ge : pos + l ≤ min (pos + l + maxLen) c.string.length := by
      rw [Nat.min_def]
      split <;> omega
    obtain ⟨a1, a2, a3, a4⟩ := adjustUp_spec c.string _ he0le
    refine ⟨adjustUp c.string (min (pos + l + maxLen) c.string.length), ?_,
      le_trans he0ge a1, a2, a3, a4⟩
    simp only [SubStr.after, hspan, he0min]

/-- Witness for `c7_before_after_boundary_safe` on the collection built from
`["é", "a"]`, at id 1 with `maxLen = 1`. -/
theorem c7_before_after_boundary_safe_witness :
    (SubStr.mk [(0, 2), (2, 1)] [195, 169, 97]).spans[1]? = some (2, 1) ∧
    (∃ s, (SubStr.mk [(0, 2), (2, 1)] [195, 169, 97]).before 1 1 =
        some (sliceB [195, 169, 97] s 2) ∧
       s ≤ 2 - 1 ∧ s ≤ 2 ∧ 2 ≤ ([195, 169, 97] : Str).length ∧
       isCharBoundary [195, 169, 97] s = true ∧
       ∀ j, s < j → j ≤ 2 - 1 → isCharBoundary [195, 169, 97] j = false) ∧
    (∃ e, (SubStr.mk [(0, 2), (2, 1)] [195, 169, 97]).after 1 1 =
        some (sliceB [195, 169, 97] (2 + 1) e) ∧
       2 + 1 ≤ e ∧ e ≤ ([195, 169, 97] : Str).length ∧
       isCharBoundary [195, 169, 97] e = true ∧
       ∀ j, min (2 + 1 + 1) ([195, 169, 97] : Str).length ≤ j → j < e →
         isCharBoundary [195, 169, 97] j = false) := by
  have h := c7_before_after_boundary_safe (SubStr.mk [(0, 2), (2, 1)] [195, 169, 97])
    1 1 2 1 (by decide) (by decide) (by decide) (by decide)
  exact ⟨by decide, h.1, h.2⟩

/-! Generic fold helpers used to track invariants through the build phases. -/

/-- A fold preserves any property each step preserves. -/
theorem foldl_preserve {α β : Type} (f : β → α → β) (P : β → Prop)
    (hpres : ∀ st y, P st → P (f st y)) :
    ∀ (l : List α) (st : β), P st → P (l.foldl f st) := by
  intro l
  induction l with
  | nil => intro st h; exact h
  | cons a l ih => intro st h; exact ih (f st a) (hpres st a h)

/-- A fold establishes a property if some visited element establishes it
(from a step-invariant) and every step preserves it. -/
theorem foldl_establish_inv {α β : Type} (f : β → α → β) (Inv P : β → Prop)
    (x : α)
    (hinv : ∀ st y, Inv st → Inv (f st y))
    (hest : ∀ st, Inv st → P (f st x))
    (hpres : ∀ st y, P st → P (f st y)) :
    ∀ (l : List α), x ∈ l → ∀ st, Inv st → P (l.foldl f st) := by
  intro l
  induction l with
  | nil => intro hx; cases hx
  | cons a l ih =>
    intro hx st hst
    rcases List.mem_cons.mp hx with rfl | hx
    · exact foldl_preserve f P hpres l (f st x) (hest st hst)
    · exact ih hx (f st a) (hinv st a hst)

/-! Lemmas about buffer slices. -/

/-- A slice fully inside the old buffer is unchanged by appending. -/
theorem sliceB_append_of_le {istr t : Str} {a b : Nat} (h : b ≤ istr.length) :
    sliceB (istr ++ t) a b = sliceB istr a b := by
  unfold sliceB
  by_cases ha : a ≤ istr.length
  · rw [List.drop_append_of_le_length ha]
    rw [List.take_append_of_le_length (by rw [List.length_drop]; omega)]
  · have hb0 : b - a = 0 := by omega
    rw [hb0]
    simp

/-- The slice covering freshly appended bytes is those bytes. -/
theorem sliceB_append_self (istr s : Str) :
    sliceB (istr ++ s) istr.length (istr.length + s.length) = s := by
  unfold sliceB
  rw [List.drop_append_of_le_length (le_refl _), List.drop_length]
  simp

/-- A slice of a slice is the corresponding inner slice. -/
theorem sliceB_nested {istr w : Str} {a n : Nat} (h : sliceB istr a (a + n) = w)
    (k m : Nat) (hkm : k + m ≤ n) :
    sliceB istr (a + k) (a + k + m) = sliceB w k (k + m) := by
  unfold sliceB at *
  rw [show a + k + m - (a + k) = m from by omega]
  rw [show a + n - a = n from by omega] at h
  rw [show k + m - k = m from by omega]
  rw [← h, List.drop_take, List.take_take]
  rw [← List.drop_drop]
  rw [show min m (n - k) = m from by omega]

/-- A placed span whose slice is the whole remaining buffer pins down the
buffer's tail: if the slice `[o, o + n)` ends exactly at the buffer end,
the last `n` bytes are that slice. -/
theorem drop_eq_of_slice_end {istr w : Str} {o : Nat}
    (hlen : o + w.length = istr.length)
    (hslice : sliceB istr o (o + w.length) = w) : istr.drop o = w := by
  unfold sliceB at hslice
  rw [show o + w.length - o = w.length from by omega] at hslice
  have hdl : (istr.drop o).length = w.length := by
    rw [List.length_drop]
    omega
  rw [← hslice, List.take_of_length_le (le_of_eq hdl)]

/-! Soundness facts for the chain-search helpers. -/

/-- What a successful `find_next_string` guarantees: the returned id is
in range and unplaced, the key `e` is a char-boundary suffix of the current
string, and position/tail are computed from `e`. -/
theorem findNextString_spec (vec : List Str) (spans : List (Option (Nat × Nat)))
    (index position : Nat) (beginnings : Str → List Nat) (nxt : NextStr)
    (h : findNextString vec spans index position beginnings = some nxt) :
    ∃ e, spans[nxt.index]? = some none ∧ nxt.index ∈ beginnings e ∧
      nxt.position = position - e.length ∧
      nxt.tail = (vec.getD nxt.index []).drop e.length ∧
      ∃ i, i ≤ (vec.getD index []).length ∧ e = (vec.getD index []).drop i := by
  unfold findNextString at h
  obtain ⟨l1, sp, l2, heq, hsp, hnone⟩ := findSome?_eq_some_split _ _ _ h
  split at hsp
  next pre e hsplit =>
    split at hsp
    next j hfind =>
      cases hsp
      have hj := List.find?_some hfind
      simp only [decide_eq_true_eq] at hj
      obtain ⟨-, i, hi, -, he⟩ := splitAfterChar_eq_some hsplit
      exact ⟨e, hj, List.mem_of_find?_eq_some hfind, rfl, rfl, i,
        le_of_lt (charStarts_lt_length _ hi), he⟩
    next hfind => exact Option.noConfusion hsp
  next hsplit => exact Option.noConfusion hsp

/-- Membership in the modelled `beginnings` map: the id is in range, has no
containment link, and the key is a front part of its string. -/
theorem beginningsIds_mem {vec : List Str} {cont : List (Option (Nat × Nat))}
    {key : Str} {j : Nat} (h : j ∈ beginningsIds vec cont key) :
    j < vec.length ∧ cont.getD j none = none ∧
      ∃ rest, vec.getD j [] = key ++ rest := by
  unfold beginningsIds at h
  obtain ⟨hrange, hcond⟩ := List.mem_filter.mp h
  rw [List.mem_range] at hrange
  simp only [Bool.and_eq_true] at hcond
  obtain ⟨hcont, hany⟩ := hcond
  rw [List.any_eq_true] at hany
  obtain ⟨sp, hsp, hmatch⟩ := hany
  refine ⟨hrange, by simpa using hcont, ?_⟩
  split at hmatch
  next b rest hsplit =>
    rw [beq_iff_eq] at hmatch
    subst hmatch
    obtain ⟨-, i, hi, hb, hrest⟩ := splitAfterChar_eq_some hsplit
    refine ⟨rest, ?_⟩
    rw [hb, hrest]
    exact (List.take_append_drop i _).symm
  next => cases hmatch

/-! Accounting lemmas: the storage string never outgrows the placed weight. -/

/-- A fold preserves a property each step preserves for visited elements. -/
theorem foldl_preserve_mem {α β : Type} (f : β → α → β) (P : β → Prop) :
    ∀ (l : List α), (∀ st y, y ∈ l → P st → P (f st y)) →
      ∀ st, P st → P (l.foldl f st) := by
  intro l
  induction l with
  | nil => intro _ st h; exact h
  | cons a l ih =>
    intro hpres st h
    exact ih (fun st y hy => hpres st y (List.mem_cons_of_mem a hy))
      (f st a) (hpres st a (List.mem_cons_self a l) h)

/-- The total input length as a sum over ids. -/
theorem totalLen_eq_sum_range (vec : List Str) :
    totalLen vec = ∑ i ∈ Finset.range vec.length, (vec.getD i []).length := by
  induction vec with
  | nil => simp [totalLen]
  | cons a v ih =>
    rw [List.length_cons, Finset.sum_range_succ']
    simp only [List.getD_cons_succ, List.getD_cons_zero]
    rw [totalLen, List.map_cons, List.sum_cons]
    rw [totalLen] at ih
    omega

/-- The placed weight never exceeds the total input length. -/
theorem placedWeight_le_total (vec : List Str)
    (cont spans : List (Option (Nat × Nat))) :
    placedWeight vec cont spans ≤ totalLen vec := by
  rw [totalLen_eq_sum_range]
  exact Finset.sum_le_sum_of_subset (Finset.filter_subset _ _)

/-- With one contained id of positive length, the placed weight stays below
the total input length by at least that string's length. -/
theorem placedWeight_add_contained_le (vec : List Str)
    (cont spans : List (Option (Nat × Nat))) (p : Nat) (hp : p < vec.length)
    (hc : cont.getD p none ≠ none) :
    placedWeight vec cont spans + (vec.getD p []).length ≤ totalLen vec := by
  rw [totalLen_eq_sum_range]
  have hsub : (Finset.range vec.length).filter
      (fun i => (spans.getD i none).isSome = true ∧ cont.getD i none = none) ⊆
      (Finset.range vec.length).erase p := by
    intro j hj
    obtain ⟨hjr, -, hjc⟩ := Finset.mem_filter.mp hj
    refine Finset.mem_erase.mpr ⟨?_, hjr⟩
    intro hjp
    exact hc (hjp ▸ hjc)
  have h1 : placedWeight vec cont spans ≤
      ∑ i ∈ (Finset.range vec.length).erase p, (vec.getD i []).length :=
    Finset.sum_le_sum_of_subset hsub
  have h2 : (vec.getD p []).length +
      ∑ i ∈ (Finset.range vec.length).erase p, (vec.getD i []).length =
      ∑ i ∈ Finset.range vec.length, (vec.getD i []).length :=
    Finset.add_sum_erase _ (fun i => (vec.getD i []).length) (Finset.mem_range.mpr hp)
  omega

/-- Setting a span of a contained id does not change the placed weight. -/
theorem placedWeight_set_contained (vec : List Str)
    (cont spans : List (Option (Nat × Nat))) (i : Nat)
    (x : Option (Nat × Nat)) (hc : cont.getD i none ≠ none) :
    placedWeight vec cont (spans.set i x) = placedWeight vec cont spans := by
  unfold placedWeight
  refine Finset.sum_congr (Finset.filter_congr ?_) (fun _ _ => rfl)
  intro j hj
  by_cases hji : i = j
  · subst hji
    constructor
    · rintro ⟨-, hjc⟩; exact absurd hjc hc
    · rintro ⟨-, hjc⟩; exact absurd hjc hc
  · rw [List.getD_eq_getElem?_getD, List.getElem?_set_ne hji,
      ← List.getD_eq_getElem?_getD]

/-- Placing an unplaced uncontained id adds exactly its length to the
placed weight. -/
theorem placedWeight_set_fresh (vec : List Str)
    (cont spans : List (Option (Nat × Nat))) (i : Nat) (x : Nat × Nat)
    (hiv : i < vec.length) (his : i < spans.length)
    (hcont : cont.getD i none = none) (hspan : spans.getD i none = none) :
    placedWeight vec cont (spans.set i (some x)) =
      placedWeight vec cont spans + (vec.getD i []).length := by
  unfold placedWeight
  have hfe : (Finset.range vec.length).filter
      (fun j => ((spans.set i (some x)).getD j none).isSome = true ∧
        cont.getD j none = none)
      = insert i ((Finset.range vec.length).filter
        (fun j => (spans.getD j none).isSome = true ∧ cont.getD j none = none)) := by
    ext j
    simp only [Finset.mem_filter, Finset.mem_insert, Finset.mem_range]
    constructor
    · rintro ⟨hj, hsome, hcontj⟩
      by_cases hji : j = i
      · exact Or.inl hji
      · refine Or.inr ⟨hj, ?_, hcontj⟩
        rwa [List.getD_eq_getElem?_getD, List.getElem?_set_ne (fun h => hji h.symm),
          ← List.getD_eq_getElem?_getD] at hsome
    · rintro (rfl | ⟨hj, hsome, hcontj⟩)
      · refine ⟨hiv, ?_, hcont⟩
        rw [List.getD_eq_getElem?_getD, List.getElem?_set_self his]
        rfl
      · by_cases hji : j = i
        · subst hji
          rw [hspan] at hsome
          cases hsome
        · refine ⟨hj, ?_, hcontj⟩
          rwa [List.getD_eq_getElem?_getD, List.getElem?_set_ne (fun h => hji h.symm),
            ← List.getD_eq_getElem?_getD]
  rw [hfe, Finset.sum_insert]
  · omega
  · intro hmem
    obtain ⟨-, hsome, -⟩ := Finset.mem_filter.mp hmem
    rw [hspan] at hsome
    cases hsome

/-- One placement step (set a fresh uncontained span, append at most that
string's bytes) preserves the accounting invariant. -/
theorem accInv_step (vec : List Str) (cont spans : List (Option (Nat × Nat)))
    (istr : Str) (j : Nat) (x : Nat × Nat) (t : Str)
    (hinv : AccInv vec cont spans istr) (hj : j < vec.length)
    (hcont : cont.getD j none = none) (hspan : spans.getD j none = none)
    (ht : t.length ≤ (vec.getD j []).length) :
    AccInv vec cont (spans.set j (some x)) (istr ++ t) := by
  obtain ⟨hlen, hw⟩ := hinv
  constructor
  · rw [List.length_set, hlen]
  · rw [List.length_append,
      placedWeight_set_fresh vec cont spans j x hj (by omega) hcont hspan]
    omega

/-- The chain loop preserves the accounting invariant. -/
theorem accInv_chainLoop (vec : List Str) (cont : List (Option (Nat × Nat))) :
    ∀ (fuel : Nat) (spans : List (Option (Nat × Nat))) (istr : Str)
      (index position : Nat),
      AccInv vec cont spans istr →
      AccInv vec cont
        (chainLoop vec (beginningsIds vec cont) fuel spans istr index position).1
        (chainLoop vec (beginningsIds vec cont) fuel spans istr index position).2.1 := by
  intro fuel
  induction fuel with
  | zero => intro spans istr index position h; exact h
  | succ n ih =>
    intro spans istr index position h
    unfold chainLoop
    cases hf : findNextString vec spans index position (beginningsIds vec cont) with
    | none => exact h
    | some nxt =>
      simp only []
      obtain ⟨e, hun, hmem, hposn, htail, -, -, -⟩ :=
        findNextString_spec vec spans index position _ nxt hf
      obtain ⟨hjv, hjc, rest, hsplit⟩ := beginningsIds_mem hmem
      have hjd : spans.getD nxt.index none = none := by
        rw [List.getD_eq_getElem?_getD, hun]
        rfl
      have htl : nxt.tail.length ≤ (vec.getD nxt.index []).length := by
        rw [htail, List.length_drop]
        omega
      exact ih _ _ nxt.index _ (accInv_step vec cont spans istr nxt.index _ _ h hjv hjc hjd htl)

/-- Phase 2 preserves the accounting invariant. -/
theorem accInv_findPart (b : Builder)
    (h : AccInv b.vec b.contained_in b.spans b.index_string) :
    AccInv b.vec b.contained_in b.findPartSubstrings.spans
      b.findPartSubstrings.index_string := by
  unfold Builder.findPartSubstrings
  simp only []
  refine foldl_preserve_mem _
    (fun (st : List (Option (Nat × Nat)) × Str × Nat) =>
      AccInv b.vec b.contained_in st.1 st.2.1) _ ?_ _ h
  intro st i hi hst
  obtain ⟨spans, istr, position⟩ := st
  unfold findPartStep
  simp only []
  by_cases hcont : (b.contained_in.getD i none).isNone
  · rw [if_pos hcont]
    by_cases hsome : (spans.getD i none).isSome
    · rw [if_pos hsome]
      exact hst
    · rw [if_neg hsome]
      have hiv : i < b.vec.length := List.mem_range.mp hi
      have hc : b.contained_in.getD i none = none := Option.isNone_iff_eq_none.mp hcont
      have hs : spans.getD i none = none := Option.not_isSome_iff_eq_none.mp hsome
      exact accInv_chainLoop b.vec b.contained_in _ _ _ i _
        (accInv_step b.vec b.contained_in spans istr i _ _ hst hiv hc hs (le_refl _))
  · rw [if_neg hcont]
    exact hst

/-- Phase 3 preserves the accounting invariant. -/
theorem accInv_joinLoose (b : Builder)
    (h : AccInv b.vec b.contained_in b.spans b.index_string) :
    AccInv b.vec b.contained_in b.joinLooseStrings.spans
      b.joinLooseStrings.index_string := by
  unfold Builder.joinLooseStrings
  simp only []
  refine foldl_preserve_mem _
    (fun (st : List (Option (Nat × Nat)) × Str) =>
      AccInv b.vec b.contained_in st.1 st.2) _ ?_ _ h
  intro st i hi hst
  obtain ⟨spans, istr⟩ := st
  simp only []
  by_cases hcond : (b.contained_in.getD i none).isNone = true ∧ (spans.getD i none).isNone = true
  · rw [if_pos (by rw [Bool.and_eq_true]; exact ⟨hcond.1, hcond.2⟩)]
    exact accInv_step b.vec b.contained_in spans istr i _ _ hst
      (List.mem_range.mp hi) (Option.isNone_iff_eq_none.mp hcond.1)
      (Option.isNone_iff_eq_none.mp hcond.2) (le_refl _)
  · rw [if_neg (by
      intro hb
      simp only [Bool.and_eq_true] at hb
      exact hcond ⟨hb.1, hb.2⟩)]
    exact hst

/-- One resolution pass preserves the accounting invariant (it only places
contained ids, which carry no weight, and never touches the storage). -/
theorem accInv_joinSubstringsPass (vec : List Str)
    (cont spans : List (Option (Nat × Nat))) (istr : Str)
    (h : AccInv vec cont spans istr) :
    AccInv vec cont (joinSubstringsPass vec cont spans) istr := by
  unfold joinSubstringsPass
  refine foldl_preserve _ (fun spans => AccInv vec cont spans istr) ?_ _ _ h
  intro spans i hst
  unfold joinSubstringsStep
  cases hc : cont.getD i none with
  | none => exact hst
  | some cs =>
    obtain ⟨cid, start⟩ := cs
    simp only []
    by_cases hsome : (spans.getD i none).isNone
    · rw [if_pos hsome]
      cases hcid : spans.getD cid none with
      | none => exact hst
      | some cp =>
        obtain ⟨cpos, cl⟩ := cp
        simp only []
        obtain ⟨hlen, hw⟩ := hst
        constructor
        · rw [List.length_set, hlen]
        · rw [placedWeight_set_contained vec cont spans i _ (by rw [hc]; simp)]
          exact hw
    · rw [if_neg hsome]
      exact hst

/-- The resolution loop preserves the accounting invariant. -/
theorem accInv_joinSubstringsLoop (vec : List Str)
    (cont : List (Option (Nat × Nat))) (istr : Str) :
    ∀ (fuel : Nat) (spans spans2 : List (Option (Nat × Nat))),
      AccInv vec cont spans istr →
      joinSubstringsLoop vec cont fuel spans = some spans2 →
      AccInv vec cont spans2 istr := by
  intro fuel
  induction fuel with
  | zero =>
    intro spans spans2 h hl
    unfold joinSubstringsLoop at hl
    split at hl
    · cases hl; exact h
    · cases hl
  | succ n ih =>
    intro spans spans2 h hl
    unfold joinSubstringsLoop at hl
    split at hl
    · cases hl; exact h
    · split at hl
      · exact ih _ _ (accInv_joinSubstringsPass vec cont spans istr h) hl
      · cases hl

/-- Unpack a successful full build into its phase-3 state and the resolved
span table of phase 4. -/
theorem buildSubStr_decompose (v : List Str) (c : SubStr)
    (hb : buildSubStr (mkBuilder v) = some c) :
    ∃ sp, joinSubstringsLoop (buildPhases123 v).vec (buildPhases123 v).contained_in
        (countNone (buildPhases123 v).spans) (buildPhases123 v).spans = some sp ∧
      c.string = (buildPhases123 v).index_string ∧
      c.spans = sp.map (fun s => s.getD (0, 0)) := by
  unfold buildSubStr at hb
  obtain ⟨b2, h2, rfl⟩ := Option.map_eq_some'.mp hb
  unfold Builder.build_only at h2
  rw [if_neg (show ¬((mkBuilder v).build = true) by simp [mkBuilder])] at h2
  obtain ⟨b3, h3, rfl⟩ := Option.map_eq_some'.mp h2
  unfold Builder.joinSubstrings at h3
  obtain ⟨sp, hsp, rfl⟩ := Option.map_eq_some'.mp h3
  exact ⟨sp, hsp, rfl, rfl⟩

/-- C6: on every input on which the build completes, the storage string is
at most the total byte length of the inputs. -/
theorem c6_storage_le_total (v : List Str) (c : SubStr)
    (hb : buildSubStr (mkBuilder v) = some c) :
    c.storage_len ≤ totalLen v := by
  obtain ⟨sp, hsp, hstr, -⟩ := buildSubStr_decompose v c hb
  have hinv1 : AccInv ((mkBuilder v).findSubstrings).vec
      ((mkBuilder v).findSubstrings).contained_in
      ((mkBuilder v).findSubstrings).spans
      ((mkBuilder v).findSubstrings).index_string := by
    constructor
    · simp [Builder.findSubstrings, mkBuilder]
    · simp [Builder.findSubstrings, mkBuilder]
  have hinv2 := accInv_findPart _ hinv1
  have hinv3 := accInv_joinLoose _ hinv2
  have hinv4 := accInv_joinSubstringsLoop (buildPhases123 v).vec
    (buildPhases123 v).contained_in (buildPhases123 v).index_string _ _ _ hinv3 hsp
  have hle := le_trans hinv4.2 (placedWeight_le_total _ _ _)
  rw [SubStr.storage_len, hstr]
  exact hle

/-- Witness for `c6_storage_le_total` on a one-string input. -/
theorem c6_storage_le_total_witness :
    buildSubStr (mkBuilder [[97, 98]]) = some (SubStr.mk [(0, 2)] [97, 98]) ∧
    (SubStr.mk [(0, 2)] [97, 98]).storage_len ≤ totalLen [[97, 98]] :=
  ⟨by decide, c6_storage_le_total [[97, 98]] (SubStr.mk [(0, 2)] [97, 98]) (by decide)⟩

/-! Phase-1 completeness: an actual containment always leaves a link. -/

/-- Setting any cell to `some` keeps every `some` cell `some`. -/
theorem getD_set_some_isSome (cont : List (Option (Nat × Nat))) (q p : Nat)
    (val : Option (Nat × Nat)) (hval : val.isSome = true)
    (h : (cont.getD p none).isSome = true) :
    ((cont.set q val).getD p none).isSome = true := by
  by_cases hqp : q = p
  · subst hqp
    by_cases hl : q < cont.length
    · rw [List.getD_eq_getElem?_getD, List.getElem?_set_self hl]
      exact hval
    · have hnone : cont.getD q none = none := by
        rw [List.getD_eq_getElem?_getD, List.getElem?_eq_none (by omega)]
        rfl
      rw [hnone] at h
      cases h
  · rw [List.getD_eq_getElem?_getD, List.getElem?_set_ne hqp,
      ← List.getD_eq_getElem?_getD]
    exact h

/-- The inner scan of phase 1 keeps `some` cells `some`. -/
theorem findSubstringsInner_pres (vec : List Str) (i : Nat)
    (cont : List (Option (Nat × Nat))) (p : Nat)
    (h : (cont.getD p none).isSome = true) :
    (((findSubstringsInner vec i cont)).getD p none).isSome = true := by
  unfold findSubstringsInner
  refine foldl_preserve _ (fun (c : List (Option (Nat × Nat))) => (c.getD p none).isSome = true) ?_ _ _ h
  intro st q hst
  by_cases hcond : (q ≠ i && (st.getD q none).isNone) = true
  · rw [if_pos hcond]
    cases hf : firstOcc (vec.getD q []) (vec.getD i []) with
    | some k => exact getD_set_some_isSome st q p _ rfl hst
    | none => exact hst
  · rw [if_neg hcond]
    exact hst

/-- The inner scan of phase 1 preserves the table length. -/
theorem findSubstringsInner_length (vec : List Str) (i : Nat)
    (cont : List (Option (Nat × Nat))) :
    (findSubstringsInner vec i cont).length = cont.length := by
  unfold findSubstringsInner
  refine foldl_preserve _ (fun (c : List (Option (Nat × Nat))) => c.length = cont.length) ?_ _ _ rfl
  intro st q hst
  by_cases hcond : (q ≠ i && (st.getD q none).isNone) = true
  · rw [if_pos hcond]
    cases hf : firstOcc (vec.getD q []) (vec.getD i []) with
    | some k => rw [List.length_set]; exact hst
    | none => exact hst
  · rw [if_neg hcond]
    exact hst

/-- Scanning text `t` links every distinct in-range pattern occurring in it
(either the scan itself records the link, or one already exists). -/
theorem findSubstringsInner_sets (vec : List Str) (t p : Nat) (hpt : p ≠ t)
    (hp : p < vec.length)
    (hocc : (firstOcc (vec.getD p []) (vec.getD t [])).isSome = true) :
    ∀ (cont : List (Option (Nat × Nat))), cont.length = vec.length →
      (((findSubstringsInner vec t cont)).getD p none).isSome = true := by
  intro cont hlen
  unfold findSubstringsInner
  refine foldl_establish_inv _ (fun (c : List (Option (Nat × Nat))) => c.length = vec.length)
    (fun (c : List (Option (Nat × Nat))) => (c.getD p none).isSome = true) p ?_ ?_ ?_ _
    (List.mem_range.mpr hp) _ hlen
  · intro st q hst
    by_cases hcond : (q ≠ t && (st.getD q none).isNone) = true
    · rw [if_pos hcond]
      cases hf : firstOcc (vec.getD q []) (vec.getD t []) with
      | some k => rw [List.length_set]; exact hst
      | none => exact hst
    · rw [if_neg hcond]
      exact hst
  · intro st hst
    by_cases hcond : (p ≠ t && (st.getD p none).isNone) = true
    · rw [if_pos hcond]
      cases hf : firstOcc (vec.getD p []) (vec.getD t []) with
      | some k =>
        rw [List.getD_eq_getElem?_getD, List.getElem?_set_self (by omega)]
        rfl
      | none =>
        rw [hf] at hocc
        cases hocc
    · rw [if_neg hcond]
      cases ho : st.getD p none with
      | some val => rfl
      | none =>
        exfalso
        apply hcond
        rw [Bool.and_eq_true]
        exact ⟨decide_eq_true hpt, by rw [ho]; rfl⟩
  · intro st q hst
    by_cases hcond : (q ≠ t && (st.getD q none).isNone) = true
    · rw [if_pos hcond]
      cases hf : firstOcc (vec.getD q []) (vec.getD t []) with
      | some k => exact getD_set_some_isSome st q p _ rfl hst
      | none => exact hst
    · rw [if_neg hcond]
      exact hst

/-- Phases 2 and 3 do not change the containment table. -/
theorem findPart_cont (b : Builder) :
    b.findPartSubstrings.contained_in = b.contained_in := rfl

/-- Phase 3 does not change the containment table. -/
theorem joinLoose_cont (b : Builder) :
    b.joinLooseStrings.contained_in = b.contained_in := rfl

/-- Phase 1 links every in-range pattern that occurs in a distinct text. -/
theorem findSubstrings_isSome (v : List Str) (p t : Nat) (hp : p < v.length)
    (ht : t < v.length) (hpt : p ≠ t)
    (hocc : (firstOcc (v.getD p []) (v.getD t [])).isSome = true) :
    (((mkBuilder v).findSubstrings.contained_in).getD p none).isSome = true := by
  unfold Builder.findSubstrings
  simp only []
  refine foldl_establish_inv _
    (fun (c : List (Option (Nat × Nat))) => c.length = v.length)
    (fun (c : List (Option (Nat × Nat))) => (c.getD p none).isSome = true) t
    ?_ ?_ ?_ _ (List.mem_range.mpr ht) _ ?_
  · intro st y hst
    rw [findSubstringsInner_length]
    exact hst
  · intro st hst
    exact findSubstringsInner_sets v t p hpt hp hocc st hst
  · intro st y hst
    exact findSubstringsInner_pres v y st p hst
  · simp [mkBuilder]

/-- A verbatim occurrence makes `firstOcc` succeed. -/
theorem firstOcc_isSome_of_parts {pat text : Str} (pre post : Str)
    (h : text = pre ++ pat ++ post) : (firstOcc pat text).isSome = true := by
  unfold firstOcc
  cases hf : (List.range (text.length + 1)).find?
      (fun i => pat.isPrefixOf (text.drop i)) with
  | some k => rfl
  | none =>
    exfalso
    refine List.find?_eq_none.mp hf pre.length ?_ ?_
    · rw [List.mem_range]
      subst h
      simp [List.length_append]
      omega
    · subst h
      rw [List.append_assoc, List.drop_left, List.isPrefixOf_iff_prefix]
      exact List.prefix_append pat post

/-- C5 as amended: whenever some nonempty input string occurs verbatim
inside a different input string, the built storage is strictly smaller than
the total input length.  (The boundary-overlap half of the original claim is
refuted by `c5_counterexample`: an overlap that exists may go unexploited.) -/
theorem c5_containment_strict (v : List Str) (c : SubStr) (p t : Nat)
    (hp : p < v.length) (ht : t < v.length) (hpt : p ≠ t)
    (hne : v.getD p [] ≠ [])
    (hocc : ∃ pre post, v.getD t [] = pre ++ v.getD p [] ++ post)
    (hb : buildSubStr (mkBuilder v) = some c) :
    c.storage_len < totalLen v := by
  obtain ⟨sp, hsp, hstr, -⟩ := buildSubStr_decompose v c hb
  obtain ⟨pre, post, hparts⟩ := hocc
  have hcontp := findSubstrings_isSome v p t hp ht hpt
    (firstOcc_isSome_of_parts pre post hparts)
  have hinv1 : AccInv ((mkBuilder v).findSubstrings).vec
      ((mkBuilder v).findSubstrings).contained_in
      ((mkBuilder v).findSubstrings).spans
      ((mkBuilder v).findSubstrings).index_string := by
    constructor
    · simp [Builder.findSubstrings, mkBuilder]
    · simp [Builder.findSubstrings, mkBuilder]
  have hinv4 := accInv_joinSubstringsLoop (buildPhases123 v).vec
    (buildPhases123 v).contained_in (buildPhases123 v).index_string _ _ _
    (accInv_joinLoose _ (accInv_findPart _ hinv1)) hsp
  have hcp : (buildPhases123 v).contained_in.getD p none ≠ none := by
    intro h0
    have hcc : (buildPhases123 v).contained_in =
        (mkBuilder v).findSubstrings.contained_in := rfl
    rw [hcc] at h0
    rw [h0] at hcontp
    cases hcontp
  have hbound := placedWeight_add_contained_le (buildPhases123 v).vec
    (buildPhases123 v).contained_in sp p hp hcp
  have h2 := hinv4.2
  have hlen1 : 1 ≤ (v.getD p []).length := List.length_pos.mpr hne
  have hv : (buildPhases123 v).vec = v := rfl
  rw [hv] at hbound h2
  rw [SubStr.storage_len, hstr]
  omega

/-- Witness for `c5_containment_strict`: the containment scenario
`["cat", "cats", "category"]` stores 12 bytes against a 15-byte total. -/
theorem c5_containment_strict_witness :
    buildSubStr (mkBuilder
        [[99, 97, 116], [99, 97, 116, 115], [99, 97, 116, 101, 103, 111, 114, 121]]) =
      some (SubStr.mk [(0, 3), (0, 4), (4, 8)]
        [99, 97, 116, 115, 99, 97, 116, 101, 103, 111, 114, 121]) ∧
    (SubStr.mk [(0, 3), (0, 4), (4, 8)]
        [99, 97, 116, 115, 99, 97, 116, 101, 103, 111, 114, 121]).storage_len <
      totalLen [[99, 97, 116], [99, 97, 116, 115], [99, 97, 116, 101, 103, 111, 114, 121]] :=
  ⟨by decide,
   c5_containment_strict _ _ 0 1 (by decide) (by decide) (by decide) (by decide)
     ⟨[], [115], by decide⟩ (by decide)⟩

/-! Soundness of phase 1's containment table and the span invariants. -/

/-- What a successful `firstOcc` means. -/
theorem firstOcc_spec {pat text : Str} {k : Nat} (h : firstOcc pat text = some k) :
    k ≤ text.length ∧ pat.isPrefixOf (text.drop k) = true := by
  unfold firstOcc at h
  have hm := List.mem_of_find?_eq_some h
  have hp := List.find?_some h
  rw [List.mem_range] at hm
  exact ⟨by omega, hp⟩

/-- An in-range default read is a member of the list. -/
theorem getD_mem_of_lt {vec : List Str} {i : Nat} (h : i < vec.length) :
    vec.getD i [] ∈ vec := by
  rw [List.getD_eq_getElem?_getD, List.getElem?_eq_getElem h]
  exact List.getElem_mem h

/-- Setting one sound link preserves the containment-table soundness. -/
theorem contSound_set {vec : List Str} {cont : List (Option (Nat × Nat))}
    {q i k : Nat} (hc : ContSound vec cont) (hi : i < vec.length)
    (hf : firstOcc (vec.getD q []) (vec.getD i []) = some k) :
    ContSound vec (cont.set q (some (i, u8cast k))) := by
  intro p t s hp
  rw [List.getElem?_set] at hp
  by_cases hqp : q = p
  · rw [if_pos hqp] at hp
    by_cases hql : q < cont.length
    · rw [if_pos hql] at hp
      injection hp with hp
      injection hp with hp
      injection hp with h1 h2
      subst hqp
      subst h1
      subst h2
      exact ⟨hi, k, hf, rfl⟩
    · rw [if_neg hql] at hp
      cases hp
  · rw [if_neg hqp] at hp
    exact hc p t s hp

/-- The inner scan of phase 1 preserves containment-table soundness. -/
theorem contSound_findSubstringsInner {vec : List Str} {i : Nat}
    (hi : i < vec.length) (cont : List (Option (Nat × Nat)))
    (hc : ContSound vec cont) : ContSound vec (findSubstringsInner vec i cont) := by
  unfold findSubstringsInner
  refine foldl_preserve _ (fun c => ContSound vec c) ?_ _ _ hc
  intro st q hst
  by_cases hcond : (q ≠ i && (st.getD q none).isNone) = true
  · rw [if_pos hcond]
    cases hf : firstOcc (vec.getD q []) (vec.getD i []) with
    | some k => exact contSound_set hst hi hf
    | none => exact hst
  · rw [if_neg hcond]
    exact hst

/-- The containment table after phase 1 is sound. -/
theorem contSound_findSubstrings (v : List Str) :
    ContSound v ((mkBuilder v).findSubstrings.contained_in) := by
  unfold Builder.findSubstrings
  simp only []
  refine foldl_preserve_mem _ (fun c => ContSound v c) _ ?_ _ ?_
  · intro st y hy hst
    exact contSound_findSubstringsInner (List.mem_range.mp hy) st hst
  · intro p t s hp
    rw [show (mkBuilder v).contained_in = List.replicate v.length none from rfl,
      List.getElem?_replicate] at hp
    split at hp
    · injection hp with hp
      cases hp
    · cases hp

/-- Placing a string at the end of the buffer preserves span soundness. -/
theorem spanSound_place (vec : List Str) (spans : List (Option (Nat × Nat)))
    (istr : Str) (i : Nat)
    (hsound : SpanSound vec spans istr) :
    SpanSound vec (spans.set i (some (istr.length, (vec.getD i []).length)))
      (istr ++ vec.getD i []) := by
  intro p o l hp
  rw [List.getElem?_set] at hp
  by_cases hip : i = p
  · rw [if_pos hip] at hp
    by_cases hil : i < spans.length
    · rw [if_pos hil] at hp
      injection hp with hp
      injection hp with hp
      injection hp with h1 h2
      subst hip
      subst h1
      subst h2
      refine ⟨rfl, by rw [List.length_append], ?_⟩
      exact sliceB_append_self istr (vec.getD i [])
    · rw [if_neg hil] at hp
      cases hp
  · rw [if_neg hip] at hp
    obtain ⟨h1, h2, h3⟩ := hsound p o l hp
    exact ⟨h1, le_trans h2 (by rw [List.length_append]; omega),
      by rw [sliceB_append_of_le h2]; exact h3⟩

/-- The chain loop preserves span soundness, the cursor/buffer coupling and
the accounting invariant: every placement writes the span of a string whose
bytes are reconstructible from the buffer. -/
theorem chainLoop_sound (vec : List Str) (cont : List (Option (Nat × Nat)))
    (hlen : ∀ s ∈ vec, s.length ≤ 255) (htot : totalLen vec < 4294967296) :
    ∀ (fuel : Nat) (spans : List (Option (Nat × Nat))) (istr : Str)
      (index position : Nat),
      AccInv vec cont spans istr →
      SpanSound vec spans istr →
      istr.length = position →
      (∃ o, spans[index]? = some (some (o, (vec.getD index []).length)) ∧
        o + (vec.getD index []).length = position) →
      AccInv vec cont
        (chainLoop vec (beginningsIds vec cont) fuel spans istr index position).1
        (chainLoop vec (beginningsIds vec cont) fuel spans istr index position).2.1 ∧
      SpanSound vec
        (chainLoop vec (beginningsIds vec cont) fuel spans istr index position).1
        (chainLoop vec (beginningsIds vec cont) fuel spans istr index position).2.1 ∧
      (chainLoop vec (beginningsIds vec cont) fuel spans istr index position).2.1.length =
        (chainLoop vec (beginningsIds vec cont) fuel spans istr index position).2.2 := by
  intro fuel
  induction fuel with
  | zero => intro spans istr index position hacc hsound hpos hhead; exact ⟨hacc, hsound, hpos⟩
  | succ n ih =>
    intro spans istr index position hacc hsound hpos hhead
    unfold chainLoop
    cases hf : findNextString vec spans index position (beginningsIds vec cont) with
    | none => exact ⟨hacc, hsound, hpos⟩
    | some nxt =>
      simp only []
      obtain ⟨e, hun, hmem, hposn, htail, ic, hicle, he⟩ :=
        findNextString_spec vec spans index position _ nxt hf
      obtain ⟨hjv, hjc, rest, hsplit⟩ := beginningsIds_mem hmem
      obtain ⟨o, hheadsp, hoend⟩ := hhead
      obtain ⟨-, hbound0, hslice0⟩ := hsound index o _ hheadsp
      have hdrop : istr.drop o = vec.getD index [] :=
        drop_eq_of_slice_end (by omega) hslice0
      have helen : e.length = (vec.getD index []).length - ic := by
        rw [he, List.length_drop]
      have hjl : nxt.index < spans.length := by
        rcases List.getElem?_eq_some.mp hun with ⟨h, -⟩
        exact h
      have hjd : spans.getD nxt.index none = none := by
        rw [List.getD_eq_getElem?_getD, hun]
        rfl
      have hjeq : vec.getD nxt.index [] = e ++ nxt.tail := by
        rw [htail, hsplit, List.drop_left]
      have htl_len : nxt.tail.length = (vec.getD nxt.index []).length - e.length := by
        rw [htail, List.length_drop]
      have hlenJ_eq : (vec.getD nxt.index []).length = e.length + nxt.tail.length := by
        have := congrArg List.length hjeq
        simpa using this
      have histrW : istr.length ≤ totalLen vec :=
        le_trans hacc.2 (placedWeight_le_total _ _ _)
      have hjlen255 : (vec.getD nxt.index []).length ≤ 255 :=
        hlen _ (getD_mem_of_lt hjv)
      have hcast1 : u32cast nxt.position = nxt.position := by
        unfold u32cast
        rw [hposn]
        apply Nat.mod_eq_of_lt
        omega
      have hcast2 : u8cast (vec.getD nxt.index []).length =
          (vec.getD nxt.index []).length := by
        unfold u8cast
        exact Nat.mod_eq_of_lt (by omega)
      rw [hcast1, hcast2]
      have hacc2 : AccInv vec cont
          (spans.set nxt.index (some (nxt.position, (vec.getD nxt.index []).length)))
          (istr ++ nxt.tail) :=
        accInv_step vec cont spans istr nxt.index _ _ hacc hjv hjc hjd (by omega)
      have hpos2 : (istr ++ nxt.tail).length =
          nxt.position + (vec.getD nxt.index []).length := by
        rw [List.length_append]
        omega
      have hsound2 : SpanSound vec
          (spans.set nxt.index (some (nxt.position, (vec.getD nxt.index []).length)))
          (istr ++ nxt.tail) := by
        intro p o2 l2 hp
        rw [List.getElem?_set] at hp
        by_cases hjp : nxt.index = p
        · rw [if_pos hjp, if_pos hjl] at hp
          injection hp with hp
          injection hp with hp
          injection hp with h1 h2
          subst hjp
          subst h1
          subst h2
          refine ⟨rfl, by omega, ?_⟩
          have hd1 : (istr ++ nxt.tail).drop nxt.position = e ++ nxt.tail := by
            rw [List.drop_append_of_le_length (by omega : nxt.position ≤ istr.length)]
            congr 1
            have harith : nxt.position = o + ic := by omega
            rw [harith, ← List.drop_drop, hdrop, ← he]
          unfold sliceB
          rw [show nxt.position + (vec.getD nxt.index []).length - nxt.position =
            (vec.getD nxt.index []).length from by omega, hd1]
          rw [hjeq]
          exact List.take_of_length_le (by rw [List.length_append])
        · rw [if_neg hjp] at hp
          obtain ⟨h1, h2, h3⟩ := hsound p o2 l2 hp
          exact ⟨h1, le_trans h2 (by rw [List.length_append]; omega),
            by rw [sliceB_append_of_le h2]; exact h3⟩
      have hhead2 : ∃ o2,
          (spans.set nxt.index (some (nxt.position, (vec.getD nxt.index []).length)))[nxt.index]?
            = some (some (o2, (vec.getD nxt.index []).length)) ∧
          o2 + (vec.getD nxt.index []).length =
            nxt.position + (vec.getD nxt.index []).length :=
        ⟨nxt.position, by rw [List.getElem?_set_self hjl], rfl⟩
      exact ih _ _ nxt.index _ hacc2 hsound2 hpos2 hhead2

/-- Phase 2 keeps the accounting invariant and span soundness (under the
validated length cap and a buffer below the `u32` range, the stored casts
are lossless). -/
theorem findPart_sound (b : Builder)
    (hlen : ∀ s ∈ b.vec, s.length ≤ 255) (htot : totalLen b.vec < 4294967296)
    (histr : b.index_string = [])
    (hacc : AccInv b.vec b.contained_in b.spans b.index_string)
    (hsound : SpanSound b.vec b.spans b.index_string) :
    AccInv b.vec b.contained_in b.findPartSubstrings.spans
      b.findPartSubstrings.index_string ∧
    SpanSound b.vec b.findPartSubstrings.spans b.findPartSubstrings.index_string := by
  have hP : ∀ (st0 : List (Option (Nat × Nat)) × Str × Nat),
      AccInv b.vec b.contained_in st0.1 st0.2.1 → SpanSound b.vec st0.1 st0.2.1 →
      st0.2.1.length = st0.2.2 →
      AccInv b.vec b.contained_in
        ((List.range b.vec.length).foldl
          (findPartStep b.vec b.contained_in (beginningsIds b.vec b.contained_in)) st0).1
        ((List.range b.vec.length).foldl
          (findPartStep b.vec b.contained_in (beginningsIds b.vec b.contained_in)) st0).2.1 ∧
      SpanSound b.vec
        ((List.range b.vec.length).foldl
          (findPartStep b.vec b.contained_in (beginningsIds b.vec b.contained_in)) st0).1
        ((List.range b.vec.length).foldl
          (findPartStep b.vec b.contained_in (beginningsIds b.vec b.contained_in)) st0).2.1 ∧
      ((List.range b.vec.length).foldl
          (findPartStep b.vec b.contained_in (beginningsIds b.vec b.contained_in)) st0).2.1.length =
        ((List.range b.vec.length).foldl
          (findPartStep b.vec b.contained_in (beginningsIds b.vec b.contained_in)) st0).2.2 := by
    intro st0 h1 h2 h3
    refine foldl_preserve_mem _
      (fun (st : List (Option (Nat × Nat)) × Str × Nat) =>
        AccInv b.vec b.contained_in st.1 st.2.1 ∧ SpanSound b.vec st.1 st.2.1 ∧
          st.2.1.length = st.2.2) _ ?_ _ ⟨h1, h2, h3⟩
    intro st i hi hst
    obtain ⟨spans, istr, position⟩ := st
    obtain ⟨ha, hs, hc⟩ := hst
    simp only [] at ha hs hc
    unfold findPartStep
    simp only []
    by_cases hcont : (b.contained_in.getD i none).isNone = true
    · rw [if_pos hcont]
      by_cases hplaced : (spans.getD i none).isSome = true
      · rw [if_pos hplaced]
        exact ⟨ha, hs, hc⟩
      · rw [if_neg hplaced]
        have hiv : i < b.vec.length := List.mem_range.mp hi
        have hcnone : b.contained_in.getD i none = none :=
          Option.isNone_iff_eq_none.mp hcont
        have hsnone : spans.getD i none = none :=
          Option.not_isSome_iff_eq_none.mp hplaced
        have hW : istr.length ≤ totalLen b.vec :=
          le_trans ha.2 (placedWeight_le_total _ _ _)
        have hcast1 : u32cast position = position := by
          unfold u32cast
          apply Nat.mod_eq_of_lt
          omega
        have hcast2 : u8cast (b.vec.getD i []).length = (b.vec.getD i []).length := by
          unfold u8cast
          exact Nat.mod_eq_of_lt (by have := hlen _ (getD_mem_of_lt hiv); omega)
        rw [hcast1, hcast2]
        have hisl : i < spans.length := by rw [ha.1]; exact hiv
        have hacc2 : AccInv b.vec b.contained_in
            (spans.set i (some (position, (b.vec.getD i []).length)))
            (istr ++ b.vec.getD i []) :=
          accInv_step b.vec b.contained_in spans istr i _ _ ha hiv hcnone hsnone (le_refl _)
        have hplace2 : SpanSound b.vec
            (spans.set i (some (position, (b.vec.getD i []).length)))
            (istr ++ b.vec.getD i []) := by
          rw [← hc]
          exact spanSound_place b.vec spans istr i hs
        have hpos2 : (istr ++ b.vec.getD i []).length =
            position + (b.vec.getD i []).length := by
          rw [List.length_append]
          omega
        have hhead2 : ∃ o,
            (spans.set i (some (position, (b.vec.getD i []).length)))[i]? =
              some (some (o, (b.vec.getD i []).length)) ∧
            o + (b.vec.getD i []).length = position + (b.vec.getD i []).length :=
          ⟨position, by rw [List.getElem?_set_self hisl], rfl⟩
        exact chainLoop_sound b.vec b.contained_in hlen htot _ _ _ i _
          hacc2 hplace2 hpos2 hhead2
    · rw [if_neg hcont]
      exact ⟨ha, hs, hc⟩
  have h := hP (b.spans, b.index_string, 0) hacc hsound (by rw [histr]; rfl)
  exact ⟨h.1, h.2.1⟩

/-- Phase 3 keeps the accounting invariant and span soundness. -/
theorem joinLoose_sound (b : Builder)
    (hlen : ∀ s ∈ b.vec, s.length ≤ 255) (htot : totalLen b.vec < 4294967296)
    (hacc : AccInv b.vec b.contained_in b.spans b.index_string)
    (hsound : SpanSound b.vec b.spans b.index_string) :
    AccInv b.vec b.contained_in b.joinLooseStrings.spans
      b.joinLooseStrings.index_string ∧
    SpanSound b.vec b.joinLooseStrings.spans b.joinLooseStrings.index_string := by
  unfold Builder.joinLooseStrings
  simp only []
  refine foldl_preserve_mem _
    (fun (st : List (Option (Nat × Nat)) × Str) =>
      AccInv b.vec b.contained_in st.1 st.2 ∧ SpanSound b.vec st.1 st.2)
    _ ?_ _ ⟨hacc, hsound⟩
  intro st i hi hst
  obtain ⟨spans, istr⟩ := st
  obtain ⟨ha, hs⟩ := hst
  simp only [] at ha hs
  simp only []
  by_cases hcond : (b.contained_in.getD i none).isNone = true ∧
      (spans.getD i none).isNone = true
  · rw [if_pos (by rw [Bool.and_eq_true]; exact ⟨hcond.1, hcond.2⟩)]
    have hiv := List.mem_range.mp hi
    have hW : istr.length ≤ totalLen b.vec :=
      le_trans ha.2 (placedWeight_le_total _ _ _)
    have hcast1 : u32cast istr.length = istr.length := by
      unfold u32cast
      exact Nat.mod_eq_of_lt (by omega)
    have hcast2 : u8cast (b.vec.getD i []).length = (b.vec.getD i []).length := by
      unfold u8cast
      exact Nat.mod_eq_of_lt (by have := hlen _ (getD_mem_of_lt hiv); omega)
    rw [hcast1, hcast2]
    exact ⟨accInv_step b.vec b.contained_in spans istr i _ _ ha hiv
        (Option.isNone_iff_eq_none.mp hcond.1)
        (Option.isNone_iff_eq_none.mp hcond.2) (le_refl _),
      spanSound_place b.vec spans istr i hs⟩
  · rw [if_neg (by
      intro hb2
      simp only [Bool.and_eq_true] at hb2
      exact hcond ⟨hb2.1, hb2.2⟩)]
    exact ⟨ha, hs⟩

/-- An in-range default read returning `some` determines the raw entry. -/
theorem getD_some_getElem? {α : Type} {l : List (Option α)} {i : Nat} {v : α}
    (h : l.getD i none = some v) : l[i]? = some (some v) := by
  rw [List.getD_eq_getElem?_getD] at h
  cases hq : l[i]? with
  | none =>
    rw [hq] at h
    simp only [Option.getD_none] at h
    cases h
  | some w =>
    rw [hq] at h
    simp only [Option.getD_some] at h
    rw [h]

/-- One resolution pass keeps span soundness: a contained id inherits its
container's position, and the containment link records a true occurrence. -/
theorem joinSubstringsPass_sound (vec : List Str)
    (cont spans : List (Option (Nat × Nat))) (istr : Str)
    (hlen : ∀ s ∈ vec, s.length ≤ 255) (histr32 : istr.length < 4294967296)
    (hcont : ContSound vec cont) (hsl : spans.length = vec.length)
    (hsound : SpanSound vec spans istr) :
    SpanSound vec (joinSubstringsPass vec cont spans) istr ∧
      (joinSubstringsPass vec cont spans).length = vec.length := by
  unfold joinSubstringsPass
  refine foldl_preserve_mem _
    (fun (sp : List (Option (Nat × Nat))) =>
      SpanSound vec sp istr ∧ sp.length = vec.length) _ ?_ _ ⟨hsound, hsl⟩
  intro sp i hi hst
  obtain ⟨hsnd, hln⟩ := hst
  unfold joinSubstringsStep
  cases hgc : cont.getD i none with
  | none => exact ⟨hsnd, hln⟩
  | some cs =>
    obtain ⟨cid, start⟩ := cs
    simp only []
    by_cases hnone : (sp.getD i none).isNone = true
    · rw [if_pos hnone]
      cases hgcid : sp.getD cid none with
      | none => exact ⟨hsnd, hln⟩
      | some cp =>
        obtain ⟨cpos, cl⟩ := cp
        simp only []
        have hip : cont[i]? = some (some (cid, start)) := getD_some_getElem? hgc
        have hcidp : sp[cid]? = some (some (cpos, cl)) := getD_some_getElem? hgcid
        obtain ⟨hcidlt, k, hk, hstart⟩ := hcont i cid start hip
        obtain ⟨hkle, hkpre⟩ := firstOcc_spec hk
        have hk255 : k ≤ 255 := le_trans hkle (hlen _ (getD_mem_of_lt hcidlt))
        have hstartk : start = k := by
          rw [hstart]
          unfold u8cast
          exact Nat.mod_eq_of_lt (by omega)
        obtain ⟨hcl, hcb, hcs⟩ := hsnd cid cpos cl hcidp
        rw [List.isPrefixOf_iff_prefix] at hkpre
        have htake := List.prefix_iff_eq_take.mp hkpre
        have hklen : k + (vec.getD i []).length ≤ (vec.getD cid []).length := by
          have hle2 := hkpre.length_le
          rw [List.length_drop] at hle2
          omega
        have hii : i < vec.length := List.mem_range.mp hi
        have hcasti : u8cast (vec.getD i []).length = (vec.getD i []).length := by
          unfold u8cast
          exact Nat.mod_eq_of_lt (by have := hlen _ (getD_mem_of_lt hii); omega)
        have hcastp : u32cast (cpos + start) = cpos + start := by
          unfold u32cast
          apply Nat.mod_eq_of_lt
          omega
        rw [hcasti, hcastp]
        constructor
        · intro p o2 l2 hp
          rw [List.getElem?_set] at hp
          by_cases hipp : i = p
          · rw [if_pos hipp, if_pos (by rw [hln]; exact hii)] at hp
            injection hp with hp
            injection hp with hp
            injection hp with hh1 hh2
            subst hipp
            subst hh1
            subst hh2
            refine ⟨rfl, by omega, ?_⟩
            rw [hstartk]
            have hcs2 : sliceB istr cpos (cpos + (vec.getD cid []).length) =
                vec.getD cid [] := by
              rw [← hcl]
              exact hcs
            have hnest := sliceB_nested hcs2 k (vec.getD i []).length (by omega)
            rw [hnest]
            unfold sliceB
            rw [show k + (vec.getD i []).length - k = (vec.getD i []).length from by omega]
            exact htake.symm
          · rw [if_neg hipp] at hp
            exact hsnd p o2 l2 hp
        · rw [List.length_set]
          exact hln
    · rw [if_neg hnone]
      exact ⟨hsnd, hln⟩

/-- The resolution loop keeps span soundness and, on success, leaves no
unresolved span. -/
theorem joinSubstringsLoop_sound (vec : List Str)
    (cont : List (Option (Nat × Nat))) (istr : Str)
    (hlen : ∀ s ∈ vec, s.length ≤ 255) (histr32 : istr.length < 4294967296)
    (hcont : ContSound vec cont) :
    ∀ (fuel : Nat) (spans sp2 : List (Option (Nat × Nat))),
      spans.length = vec.length → SpanSound vec spans istr →
      joinSubstringsLoop vec cont fuel spans = some sp2 →
      SpanSound vec sp2 istr ∧ sp2.length = vec.length ∧ countNone sp2 = 0 := by
  intro fuel
  induction fuel with
  | zero =>
    intro spans sp2 hl hs hj
    unfold joinSubstringsLoop at hj
    split at hj
    next h0 =>
      cases hj
      exact ⟨hs, hl, h0⟩
    next h0 => cases hj
  | succ n ih =>
    intro spans sp2 hl hs hj
    unfold joinSubstringsLoop at hj
    split at hj
    next h0 =>
      cases hj
      exact ⟨hs, hl, h0⟩
    next h0 =>
      split at hj
      next hprog =>
        obtain ⟨hs2, hl2⟩ :=
          joinSubstringsPass_sound vec cont spans istr hlen histr32 hcont hl hs
        exact ih _ _ hl2 hs2 hj
      next hprog => cases hj

/-- With no unresolved spans left, every in-range entry is resolved. -/
theorem all_resolved {sp : List (Option (Nat × Nat))} (h : countNone sp = 0)
    {i : Nat} (hi : i < sp.length) : ∃ o l, sp[i]? = some (some (o, l)) := by
  unfold countNone at h
  have hall := List.countP_eq_zero.mp h
  have hq : sp[i]? = some sp[i] := List.getElem?_eq_getElem hi
  cases hv : sp[i] with
  | none =>
    exfalso
    apply hall sp[i] (List.getElem_mem hi)
    rw [hv]
    rfl
  | some pr =>
    obtain ⟨o, l⟩ := pr
    exact ⟨o, l, by rw [hq, hv]⟩

/-- C1 as amended: on every non-empty input of strings of at most 255 bytes
with total length below the `u32` range, whenever the build phases
terminate, `get(i)` reproduces the i-th input string exactly for every id
and `verify()` returns true.  (The claim's unconditional "building
succeeds" fails: `c1_counterexample` shows the duplicate input
`["a", "a"]` makes phase 4 spin forever.) -/
theorem c1_roundtrip (v : List Str) (c : SubStr) (hne : v ≠ [])
    (hlen : ∀ s ∈ v, s.length ≤ 255) (htot : totalLen v < 4294967296)
    (hb : buildSubStr (mkBuilder v) = some c) :
    (∀ i, i < v.length → c.get i = some (some (v.getD i []))) ∧
    Builder.verify (mkBuilder v) = some true := by
  unfold buildSubStr at hb
  obtain ⟨b2, h2, rfl⟩ := Option.map_eq_some'.mp hb
  have h2' := h2
  unfold Builder.build_only at h2'
  rw [if_neg (show ¬((mkBuilder v).build = true) by simp [mkBuilder])] at h2'
  obtain ⟨b3, h3, hb2eq⟩ := Option.map_eq_some'.mp h2'
  unfold Builder.joinSubstrings at h3
  obtain ⟨sp, hsp, hb3eq⟩ := Option.map_eq_some'.mp h3
  -- invariants after phase 1
  have hsound1 : SpanSound v ((mkBuilder v).findSubstrings).spans
      ((mkBuilder v).findSubstrings).index_string := by
    intro p o l hp
    rw [show ((mkBuilder v).findSubstrings).spans = List.replicate v.length none
        from rfl, List.getElem?_replicate] at hp
    split at hp
    · injection hp with hp
      cases hp
    · cases hp
  have hacc1 : AccInv v ((mkBuilder v).findSubstrings).contained_in
      ((mkBuilder v).findSubstrings).spans
      ((mkBuilder v).findSubstrings).index_string := by
    constructor
    · simp [Builder.findSubstrings, mkBuilder]
    · simp [Builder.findSubstrings, mkBuilder]
  -- phases 2 and 3
  have hp2 := findPart_sound ((mkBuilder v).findSubstrings) hlen htot rfl hacc1 hsound1
  have hp3 := joinLoose_sound (((mkBuilder v).findSubstrings).findPartSubstrings)
    hlen htot hp2.1 hp2.2
  -- phase 4
  have hcs : ContSound v (buildPhases123 v).contained_in := contSound_findSubstrings v
  have histr32 : (buildPhases123 v).index_string.length < 4294967296 :=
    lt_of_le_of_lt (le_trans hp3.1.2 (placedWeight_le_total _ _ _)) htot
  obtain ⟨hsoundF, hlenF, hcount0⟩ :=
    joinSubstringsLoop_sound v (buildPhases123 v).contained_in
      (buildPhases123 v).index_string hlen histr32 hcs
      (countNone (buildPhases123 v).spans) (buildPhases123 v).spans sp
      hp3.1.1 hp3.2 hsp
  -- identify the final builder's fields
  have hcspans : b2.spans = sp := by rw [← hb2eq, ← hb3eq]
  have hcstring : b2.index_string = (buildPhases123 v).index_string := by
    rw [← hb2eq, ← hb3eq]
    rfl
  have hbvec : b2.vec = v := by
    rw [← hb2eq, ← hb3eq]
    rfl
  constructor
  · intro i hiv
    have hspl : i < sp.length := by rw [hlenF]; exact hiv
    obtain ⟨o, l, hspi⟩ := all_resolved hcount0 hspl
    obtain ⟨hleq, hbound, hslice⟩ := hsoundF i o l hspi
    have hgi : (SubStr.mk (b2.spans.map (fun s => s.getD (0, 0)))
        b2.index_string).spans[i]? = some (o, l) := by
      show (b2.spans.map (fun s : Option (Nat × Nat) => s.getD (0, 0)))[i]?
          = some (o, l)
      rw [hcspans, List.getElem?_map, hspi]
      rfl
    have hg := SubStr.get_in_range _ i o l hgi
    have hgoal : (SubStr.mk (b2.spans.map (fun s => s.getD (0, 0)))
        b2.index_string).get i = some (some (v.getD i [])) := by
      rw [hg]
      show some (some (sliceB b2.index_string o (o + l))) = _
      rw [hcstring, hslice]
    exact hgoal
  · unfold Builder.verify
    rw [h2]
    simp only [Option.map_some', Option.some.injEq]
    rw [List.all_eq_true]
    intro i hi
    rw [List.mem_range, hbvec] at hi
    have hspl : i < sp.length := by rw [hlenF]; exact hi
    obtain ⟨o, l, hspi⟩ := all_resolved hcount0 hspl
    obtain ⟨hleq, hbound, hslice⟩ := hsoundF i o l hspi
    rw [hcspans, List.getD_eq_getElem?_getD, hspi]
    simp only [Option.getD_some]
    rw [hbvec, hcstring, hslice]
    exact beq_iff_eq.mpr rfl

/-- Witness for `c1_roundtrip` on the overlap scenario
`["application", "cationary"]` from the specification. -/
theorem c1_roundtrip_witness :
    ([[97, 112, 112, 108, 105, 99, 97, 116, 105, 111, 110],
      [99, 97, 116, 105, 111, 110, 97, 114, 121]] : List Str) ≠ [] ∧
    buildSubStr (mkBuilder
        [[97, 112, 112, 108, 105, 99, 97, 116, 105, 111, 110],
         [99, 97, 116, 105, 111, 110, 97, 114, 121]]) =
      some (SubStr.mk [(0, 11), (5, 9)]
        [97, 112, 112, 108, 105, 99, 97, 116, 105, 111, 110, 97, 114, 121]) ∧
    (∀ i, i < ([[97, 112, 112, 108, 105, 99, 97, 116, 105, 111, 110],
        [99, 97, 116, 105, 111, 110, 97, 114, 121]] : List Str).length →
      (SubStr.mk [(0, 11), (5, 9)]
        [97, 112, 112, 108, 105, 99, 97, 116, 105, 111, 110, 97, 114, 121]).get i =
        some (some ([[97, 112, 112, 108, 105, 99, 97, 116, 105, 111, 110],
          [99, 97, 116, 105, 111, 110, 97, 114, 121]].getD i []))) ∧
    Builder.verify (mkBuilder
        [[97, 112, 112, 108, 105, 99, 97, 116, 105, 111, 110],
         [99, 97, 116, 105, 111, 110, 97, 114, 121]]) = some true := by
  have h := c1_roundtrip
    [[97, 112, 112, 108, 105, 99, 97, 116, 105, 111, 110],
     [99, 97, 116, 105, 111, 110, 97, 114, 121]]
    (SubStr.mk [(0, 11), (5, 9)]
      [97, 112, 112, 108, 105, 99, 97, 116, 105, 111, 110, 97, 114, 121])
    (by decide) (by decide) (by decide) (by decide)
  exact ⟨by decide, by decide, h.1, h.2⟩

/-! Termination of the containment-resolution fixpoint (claim C8). -/

/-- Splitting an iterated link walk. -/
theorem iterLink_add (cont spans : List (Option (Nat × Nat))) :
    ∀ (a b i : Nat), iterLink cont spans (a + b) i =
      (iterLink cont spans a i).bind (iterLink cont spans b) := by
  intro a
  induction a with
  | zero =>
    intro b i
    rw [Nat.zero_add]
    rfl
  | succ a ih =>
    intro b i
    rw [show a + 1 + b = (a + b) + 1 from by omega]
    show (followLink cont spans i).bind (iterLink cont spans (a + b)) =
      ((followLink cont spans i).bind (iterLink cont spans a)).bind
        (iterLink cont spans b)
    cases followLink cont spans i with
    | none => rfl
    | some j => exact ih b j

/-- A link step taken in a more-resolved table was possible before. -/
theorem followLink_mono (cont spans spans2 : List (Option (Nat × Nat)))
    (hmono : ∀ m, (spans.getD m none).isSome = true →
      (spans2.getD m none).isSome = true)
    (i t : Nat) (h : followLink cont spans2 i = some t) :
    followLink cont spans i = some t := by
  unfold followLink at *
  cases h2 : spans2.getD i none with
  | some val => rw [h2] at h; cases h
  | none =>
    rw [h2] at h
    cases h1 : spans.getD i none with
    | some val =>
      have := hmono i (by rw [h1]; rfl)
      rw [h2] at this
      cases this
    | none => exact h

/-- An iterated walk in a more-resolved table was possible before. -/
theorem iterLink_mono (cont spans spans2 : List (Option (Nat × Nat)))
    (hmono : ∀ m, (spans.getD m none).isSome = true →
      (spans2.getD m none).isSome = true) :
    ∀ (k i j : Nat), iterLink cont spans2 k i = some j →
      iterLink cont spans k i = some j := by
  intro k
  induction k with
  | zero => intro i j h; exact h
  | succ n ih =>
    intro i j h
    show (followLink cont spans i).bind (iterLink cont spans n) = some j
    have h' : (followLink cont spans2 i).bind (iterLink cont spans2 n) = some j := h
    cases hf : followLink cont spans2 i with
    | none => rw [hf] at h'; cases h'
    | some t =>
      rw [hf] at h'
      rw [followLink_mono cont spans spans2 hmono i t hf]
      exact ih t j h'

/-- After the loose-append phase, every uncontained in-range id is placed
(so every still-unresolved id carries a containment link). -/
theorem joinLoose_resolves (b : Builder) (hl : b.spans.length = b.vec.length)
    (i : Nat) (hi : i < b.vec.length)
    (hcont : b.contained_in.getD i none = none) :
    (b.joinLooseStrings.spans.getD i none).isSome = true := by
  unfold Builder.joinLooseStrings
  simp only []
  refine foldl_establish_inv _
    (fun (st : List (Option (Nat × Nat)) × Str) => st.1.length = b.vec.length)
    (fun (st : List (Option (Nat × Nat)) × Str) => (st.1.getD i none).isSome = true) i
    ?_ ?_ ?_ _ (List.mem_range.mpr hi) _ hl
  · intro st y hst
    obtain ⟨spans, istr⟩ := st
    simp only [] at hst ⊢
    by_cases hcnd : ((b.contained_in.getD y none).isNone &&
        (spans.getD y none).isNone) = true
    · rw [if_pos hcnd]
      simp only []
      rw [List.length_set]
      exact hst
    · rw [if_neg hcnd]
      exact hst
  · intro st hst
    obtain ⟨spans, istr⟩ := st
    simp only [] at hst ⊢
    by_cases hcnd : ((b.contained_in.getD i none).isNone &&
        (spans.getD i none).isNone) = true
    · rw [if_pos hcnd]
      simp only []
      rw [List.getD_eq_getElem?_getD, List.getElem?_set_self (by rw [hst]; exact hi)]
      rfl
    · rw [if_neg hcnd]
      simp only []
      cases ho : spans.getD i none with
      | some val => rfl
      | none =>
        exfalso
        apply hcnd
        rw [Bool.and_eq_true]
        exact ⟨by rw [hcont]; rfl, by rw [ho]; rfl⟩
  · intro st y hst
    obtain ⟨spans, istr⟩ := st
    simp only [] at hst ⊢
    by_cases hcnd : ((b.contained_in.getD y none).isNone &&
        (spans.getD y none).isNone) = true
    · rw [if_pos hcnd]
      simp only []
      exact getD_set_some_isSome spans y i _ rfl hst
    · rw [if_neg hcnd]
      exact hst

/-- Without a cycle among unresolved ids, every in-range id reaches a
resolved id by following containment links at most `n` times (pigeonhole:
a walk of `n + 1` unresolved in-range nodes must repeat, giving a cycle). -/
theorem reaches_resolved_of_no_cycle (cont spans : List (Option (Nat × Nat)))
    (n : Nat)
    (hlink : ∀ i, i < n → spans.getD i none = none →
      (cont.getD i none).isSome = true)
    (htgt : ∀ i t s, cont.getD i none = some (t, s) → t < n)
    (hnc : hasCycleB cont spans n = false) :
    ∀ i, i < n → ∃ k, k ≤ n ∧ ∃ j, iterLink cont spans k i = some j ∧ j < n ∧
      (spans.getD j none).isSome = true := by
  intro i hi
  by_cases hres : (spans.getD i none).isSome = true
  · exact ⟨0, Nat.zero_le n, i, rfl, hi, hres⟩
  · by_contra hcon
    push_neg at hcon
    have htraj : ∀ m, m ≤ n → ∃ j, iterLink cont spans m i = some j ∧ j < n ∧
        spans.getD j none = none := by
      intro m
      induction m with
      | zero =>
        intro _
        exact ⟨i, rfl, hi, Option.not_isSome_iff_eq_none.mp hres⟩
      | succ m ih =>
        intro hm
        obtain ⟨j, hj, hjn, hjun⟩ := ih (by omega)
        obtain ⟨tv, htv⟩ := Option.isSome_iff_exists.mp (hlink j hjn hjun)
        obtain ⟨t, s⟩ := tv
        have htn := htgt j t s htv
        have hstep : iterLink cont spans (m + 1) i = iterLink cont spans 1 j := by
          rw [iterLink_add cont spans m 1 i, hj]
          rfl
        have hone : iterLink cont spans 1 j = some t := by
          show (followLink cont spans j).bind (iterLink cont spans 0) = some t
          unfold followLink
          rw [hjun, htv]
          rfl
        cases hto : spans.getD t none with
        | some val =>
          exact absurd (by rw [hto]; rfl)
            (hcon (m + 1) hm t (by rw [hstep, hone]) htn)
        | none =>
          exact ⟨t, by rw [hstep, hone], htn, hto⟩
    have hmap : ∀ m ∈ Finset.range (n + 1),
        (iterLink cont spans m i).getD 0 ∈ Finset.range n := by
      intro m hm
      rw [Finset.mem_range] at hm
      obtain ⟨j, hj, hjn, -⟩ := htraj m (by omega)
      rw [hj, Option.getD_some, Finset.mem_range]
      exact hjn
    obtain ⟨m1, hm1, m2, hm2, hne12, heq12⟩ :=
      Finset.exists_ne_map_eq_of_card_lt_of_maps_to (by simp) hmap
    rw [Finset.mem_range] at hm1 hm2
    have key : ∀ a b2 : Nat, a < b2 → b2 ≤ n →
        (iterLink cont spans a i).getD 0 = (iterLink cont spans b2 i).getD 0 →
        False := by
      intro a b2 hab hbn heq
      obtain ⟨j1, hj1, hj1n, -⟩ := htraj a (by omega)
      obtain ⟨j2, hj2, -, -⟩ := htraj b2 hbn
      rw [hj1, hj2, Option.getD_some, Option.getD_some] at heq
      subst heq
      have hcyc : iterLink cont spans (b2 - a) j1 = some j1 := by
        have hcomp := iterLink_add cont spans a (b2 - a) i
        rw [show a + (b2 - a) = b2 from by omega, hj2, hj1] at hcomp
        exact hcomp.symm
      have hcust : hasCycleB cont spans n = true := by
        unfold hasCycleB
        rw [List.any_eq_true]
        refine ⟨j1, List.mem_range.mpr hj1n, ?_⟩
        rw [List.any_eq_true]
        refine ⟨b2 - a, ?_, by simp [hcyc]⟩
        rw [List.mem_range']
        exact ⟨b2 - a - 1, by omega, by omega⟩
      rw [hnc] at hcust
      cases hcust
    rcases Nat.lt_or_ge m1 m2 with h12 | h21
    · exact key m1 m2 h12 (by omega) heq12
    · exact key m2 m1 (by omega) (by omega) heq12.symm

/-- A resolution step never unresolves a cell. -/
theorem joinSubstringsStep_mono (vec : List Str)
    (cont spans : List (Option (Nat × Nat))) (y m : Nat)
    (h : (spans.getD m none).isSome = true) :
    ((joinSubstringsStep vec cont spans y).getD m none).isSome = true := by
  unfold joinSubstringsStep
  cases cont.getD y none with
  | none => exact h
  | some cs =>
    obtain ⟨cid, start⟩ := cs
    simp only []
    by_cases hn : (spans.getD y none).isNone = true
    · rw [if_pos hn]
      cases spans.getD cid none with
      | some cp =>
        obtain ⟨cpos, cl⟩ := cp
        simp only []
        exact getD_set_some_isSome spans y m _ rfl h
      | none => exact h
    · rw [if_neg hn]
      exact h

/-- A resolution step keeps the table length. -/
theorem joinSubstringsStep_length (vec : List Str)
    (cont spans : List (Option (Nat × Nat))) (y : Nat) :
    (joinSubstringsStep vec cont spans y).length = spans.length := by
  unfold joinSubstringsStep
  cases cont.getD y none with
  | none => rfl
  | some cs =>
    obtain ⟨cid, start⟩ := cs
    simp only []
    by_cases hn : (spans.getD y none).isNone = true
    · rw [if_pos hn]
      cases spans.getD cid none with
      | some cp =>
        obtain ⟨cpos, cl⟩ := cp
        simp only []
        exact List.length_set spans y _
      | none => rfl
    · rw [if_neg hn]

/-- A resolution step touches only its own cell. -/
theorem joinSubstringsStep_getD_ne (vec : List Str)
    (cont spans : List (Option (Nat × Nat))) (y m : Nat) (hym : y ≠ m) :
    (joinSubstringsStep vec cont spans y).getD m none = spans.getD m none := by
  unfold joinSubstringsStep
  cases cont.getD y none with
  | none => rfl
  | some cs =>
    obtain ⟨cid, start⟩ := cs
    simp only []
    by_cases hn : (spans.getD y none).isNone = true
    · rw [if_pos hn]
      cases spans.getD cid none with
      | some cp =>
        obtain ⟨cpos, cl⟩ := cp
        simp only []
        rw [List.getD_eq_getElem?_getD, List.getElem?_set_ne hym,
          ← List.getD_eq_getElem?_getD]
      | none => rfl
    · rw [if_neg hn]

/-- Setting a resolved value never increases the number of unresolved cells. -/
theorem countNone_set_some_le (spans : List (Option (Nat × Nat))) (y : Nat)
    (v : Nat × Nat) : countNone (spans.set y (some v)) ≤ countNone spans := by
  by_cases hy : y < spans.length
  · unfold countNone
    rw [List.countP_set _ _ _ _ hy]
    have hz : (if (some v : Option (Nat × Nat)).isNone = true then 1 else 0) = 0 := rfl
    rw [hz]
    omega
  · rw [List.set_eq_of_length_le (by omega)]

/-- A resolution step never increases the number of unresolved cells. -/
theorem joinSubstringsStep_count_le (vec : List Str)
    (cont spans : List (Option (Nat × Nat))) (y : Nat) :
    countNone (joinSubstringsStep vec cont spans y) ≤ countNone spans := by
  unfold joinSubstringsStep
  cases cont.getD y none with
  | none => exact le_refl _
  | some cs =>
    obtain ⟨cid, start⟩ := cs
    simp only []
    by_cases hn : (spans.getD y none).isNone = true
    · rw [if_pos hn]
      cases spans.getD cid none with
      | some cp =>
        obtain ⟨cpos, cl⟩ := cp
        simp only []
        exact countNone_set_some_le spans y _
      | none => exact le_refl _
    · rw [if_neg hn]

/-- A full pass never increases the number of unresolved cells. -/
theorem joinSubstringsPass_count_le (vec : List Str)
    (cont spans : List (Option (Nat × Nat))) :
    countNone (joinSubstringsPass vec cont spans) ≤ countNone spans := by
  unfold joinSubstringsPass
  refine foldl_preserve _ (fun (sp : List (Option (Nat × Nat))) => countNone sp ≤ countNone spans) ?_ _ _ (le_refl _)
  intro sp y hsp
  exact le_trans (joinSubstringsStep_count_le vec cont sp y) hsp

/-- A full pass never unresolves a cell. -/
theorem joinSubstringsPass_mono (vec : List Str)
    (cont spans : List (Option (Nat × Nat))) (m : Nat)
    (h : (spans.getD m none).isSome = true) :
    ((joinSubstringsPass vec cont spans).getD m none).isSome = true := by
  unfold joinSubstringsPass
  refine foldl_preserve _ (fun (sp : List (Option (Nat × Nat))) => (sp.getD m none).isSome = true) ?_ _ _ h
  intro sp y hsp
  exact joinSubstringsStep_mono vec cont sp y m hsp

/-- A full pass keeps the table length. -/
theorem joinSubstringsPass_length (vec : List Str)
    (cont spans : List (Option (Nat × Nat))) :
    (joinSubstringsPass vec cont spans).length = spans.length := by
  unfold joinSubstringsPass
  refine foldl_preserve _ (fun (sp : List (Option (Nat × Nat))) => sp.length = spans.length) ?_ _ _ rfl
  intro sp y hsp
  rw [joinSubstringsStep_length vec cont sp y]
  exact hsp

/-- Along a link walk from an unresolved node to a resolved one there is a
"depth-1" node: unresolved, with a link whose container is resolved. -/
theorem exists_depth1 (cont spans : List (Option (Nat × Nat))) (n : Nat)
    (htgt : ∀ i t s, cont.getD i none = some (t, s) → t < n) :
    ∀ (k i j : Nat), i < n → spans.getD i none = none →
      iterLink cont spans k i = some j → (spans.getD j none).isSome = true →
      ∃ i1 c s, i1 < n ∧ spans.getD i1 none = none ∧
        cont.getD i1 none = some (c, s) ∧ (spans.getD c none).isSome = true := by
  intro k
  induction k with
  | zero =>
    intro i j hi hun hit hres
    injection hit with hit
    subst hit
    rw [hun] at hres
    cases hres
  | succ k ih =>
    intro i j hi hun hit hres
    have hit2 : (followLink cont spans i).bind (iterLink cont spans k) = some j := hit
    cases hf : followLink cont spans i with
    | none =>
      rw [hf] at hit2
      cases hit2
    | some t =>
      rw [hf] at hit2
      have hcd : ∃ s, cont.getD i none = some (t, s) := by
        unfold followLink at hf
        split at hf
        next val heq => exact Option.noConfusion hf
        next heq =>
          cases hg : cont.getD i none with
          | none => rw [hg] at hf; cases hf
          | some p =>
            rw [hg] at hf
            obtain ⟨t0, s0⟩ := p
            simp only [Option.map_some'] at hf
            injection hf with hf
            exact ⟨s0, by rw [hf]⟩
      obtain ⟨s, hcds⟩ := hcd
      have htn := htgt i t s hcds
      cases hts : spans.getD t none with
      | some val => exact ⟨i, t, s, hi, hun, hcds, by rw [hts]; rfl⟩
      | none => exact ih t j htn hts hit2 hres

/-- A pass with a depth-1 node (unresolved, linked to a resolved container)
strictly lowers the number of unresolved spans. -/
theorem joinSubstringsPass_progress (vec : List Str)
    (cont spans : List (Option (Nat × Nat))) (hsl : spans.length = vec.length)
    (i1 c s : Nat) (hi1 : i1 < vec.length)
    (hun : spans.getD i1 none = none)
    (hlk : cont.getD i1 none = some (c, s))
    (hcres : (spans.getD c none).isSome = true) :
    countNone (joinSubstringsPass vec cont spans) < countNone spans := by
  have h1 := List.range'_append 0 i1 (vec.length - i1) 1
  rw [show 0 + 1 * i1 = i1 from by omega,
    show vec.length - i1 + i1 = vec.length from by omega] at h1
  have h2 : List.range' i1 (vec.length - i1) =
      i1 :: List.range' (i1 + 1) (vec.length - i1 - 1) := by
    rw [show vec.length - i1 = (vec.length - i1 - 1) + 1 from by omega,
      List.range'_succ, Nat.add_sub_cancel]
  have hsplit : List.range vec.length =
      List.range' 0 i1 ++ i1 :: List.range' (i1 + 1) (vec.length - i1 - 1) := by
    rw [List.range_eq_range', ← h1, h2]
  unfold joinSubstringsPass
  rw [hsplit, List.foldl_append, List.foldl_cons]
  have hpre : ((List.range' 0 i1).foldl (joinSubstringsStep vec cont) spans).length
        = spans.length ∧
      (∀ m, (spans.getD m none).isSome = true →
        (((List.range' 0 i1).foldl (joinSubstringsStep vec cont) spans).getD m
          none).isSome = true) ∧
      ((List.range' 0 i1).foldl (joinSubstringsStep vec cont) spans).getD i1 none
        = spans.getD i1 none ∧
      countNone ((List.range' 0 i1).foldl (joinSubstringsStep vec cont) spans)
        ≤ countNone spans := by
    refine foldl_preserve_mem _
      (fun (sp : List (Option (Nat × Nat))) =>
        sp.length = spans.length ∧
        (∀ m, (spans.getD m none).isSome = true → (sp.getD m none).isSome = true) ∧
        sp.getD i1 none = spans.getD i1 none ∧ countNone sp ≤ countNone spans)
      _ ?_ _ ⟨rfl, fun m h => h, rfl, le_refl _⟩
    intro sp y hy hsp
    obtain ⟨hL, hM, hC, hK⟩ := hsp
    have hyi : y ≠ i1 := by
      rw [List.mem_range'] at hy
      omega
    refine ⟨?_, ?_, ?_, ?_⟩
    · rw [joinSubstringsStep_length]; exact hL
    · intro m hm
      exact joinSubstringsStep_mono vec cont sp y m (hM m hm)
    · rw [joinSubstringsStep_getD_ne vec cont sp y i1 hyi]
      exact hC
    · exact le_trans (joinSubstringsStep_count_le vec cont sp y) hK
  obtain ⟨hL, hM, hC, hK⟩ := hpre
  set st1 := (List.range' 0 i1).foldl (joinSubstringsStep vec cont) spans with hst1
  have hstep : countNone (joinSubstringsStep vec cont st1 i1) < countNone spans := by
    unfold joinSubstringsStep
    rw [hlk]
    simp only []
    rw [if_pos (by rw [hC, hun]; rfl)]
    cases hcv : st1.getD c none with
    | none =>
      have hcontr := hM c hcres
      rw [hcv] at hcontr
      cases hcontr
    | some cp =>
      obtain ⟨cpos, cl⟩ := cp
      simp only []
      have hi1l : i1 < st1.length := by rw [hL, hsl]; exact hi1
      have hq : st1[i1]? = some st1[i1] := List.getElem?_eq_getElem hi1l
      have hnone : st1[i1] = none := by
        have hC2 := hC
        rw [List.getD_eq_getElem?_getD, hq, Option.getD_some, hun] at hC2
        exact hC2
      have hcnt := List.countP_set (fun x => x.isNone) st1 i1
        (some (u32cast (cpos + s), u8cast (vec.getD i1 []).length)) hi1l
      unfold countNone
      rw [hcnt, hnone]
      have hz : (if (some (u32cast (cpos + s), u8cast (vec.getD i1 []).length) :
          Option (Nat × Nat)).isNone = true then 1 else 0) = 0 := rfl
      have ho : (if (none : Option (Nat × Nat)).isNone = true then 1 else 0) = 1 := rfl
      rw [hz, ho]
      have hpos : 0 < List.countP (fun x => x.isNone) st1 := by
        rw [List.countP_pos_iff]
        exact ⟨st1[i1], List.getElem_mem hi1l, by rw [hnone]; rfl⟩
      unfold countNone at hK
      omega
  have hsuf : countNone ((List.range' (i1 + 1) (vec.length - i1 - 1)).foldl
      (joinSubstringsStep vec cont) (joinSubstringsStep vec cont st1 i1)) ≤
      countNone (joinSubstringsStep vec cont st1 i1) := by
    refine foldl_preserve _
      (fun (sp : List (Option (Nat × Nat))) =>
        countNone sp ≤ countNone (joinSubstringsStep vec cont st1 i1)) ?_ _ _ (le_refl _)
    intro sp y hsp
    exact le_trans (joinSubstringsStep_count_le vec cont sp y) hsp
  exact lt_of_le_of_lt hsuf hstep

/-- A successful resolution loop ends with every span resolved. -/
theorem joinSubstringsLoop_count0 (vec : List Str)
    (cont : List (Option (Nat × Nat))) :
    ∀ (fuel : Nat) (spans sp2 : List (Option (Nat × Nat))),
      joinSubstringsLoop vec cont fuel spans = some sp2 → countNone sp2 = 0 := by
  intro fuel
  induction fuel with
  | zero =>
    intro spans sp2 hj
    unfold joinSubstringsLoop at hj
    split at hj
    next h0 => cases hj; exact h0
    next h0 => cases hj
  | succ n ih =>
    intro spans sp2 hj
    unfold joinSubstringsLoop at hj
    split at hj
    next h0 => cases hj; exact h0
    next h0 =>
      split at hj
      next hprog => exact ih _ _ hj
      next hprog => cases hj

/-- The resolution loop terminates whenever unresolved links form no cycle,
every unresolved id is linked, and all links point in range. -/
theorem joinSubstringsLoop_terminates (vec : List Str)
    (cont : List (Option (Nat × Nat))) :
    ∀ (fuel : Nat) (spans : List (Option (Nat × Nat))),
      countNone spans ≤ fuel →
      spans.length = vec.length →
      (∀ i, i < vec.length → spans.getD i none = none →
        (cont.getD i none).isSome = true) →
      (∀ i t s, cont.getD i none = some (t, s) → t < vec.length) →
      hasCycleB cont spans vec.length = false →
      ∃ sp2, joinSubstringsLoop vec cont fuel spans = some sp2 := by
  intro fuel
  induction fuel with
  | zero =>
    intro spans hfu hsl hlink htgt hnc
    unfold joinSubstringsLoop
    rw [if_pos (by omega)]
    exact ⟨spans, rfl⟩
  | succ n ih =>
    intro spans hfu hsl hlink htgt hnc
    unfold joinSubstringsLoop
    by_cases h0 : countNone spans = 0
    · rw [if_pos h0]
      exact ⟨spans, rfl⟩
    · rw [if_neg h0]
      have hpos : 0 < countNone spans := by omega
      unfold countNone at hpos
      obtain ⟨a, hamem, ha⟩ := List.countP_pos_iff.mp hpos
      obtain ⟨i0, hi0l, hi0e⟩ := List.getElem_of_mem hamem
      have hi0n : spans.getD i0 none = none := by
        rw [List.getD_eq_getElem?_getD, List.getElem?_eq_getElem hi0l,
          Option.getD_some, hi0e]
        exact Option.isNone_iff_eq_none.mp ha
      have hi0v : i0 < vec.length := by rw [← hsl]; exact hi0l
      obtain ⟨k, hk, j, hjit, hjn, hjres⟩ :=
        reaches_resolved_of_no_cycle cont spans vec.length hlink htgt hnc i0 hi0v
      obtain ⟨i1, c, s, hi1n, hi1un, hi1lk, hi1cres⟩ :=
        exists_depth1 cont spans vec.length htgt k i0 j hi0v hi0n hjit hjres
      have hprog := joinSubstringsPass_progress vec cont spans hsl i1 c s
        hi1n hi1un hi1lk hi1cres
      rw [if_pos hprog]
      apply ih
      · omega
      · rw [joinSubstringsPass_length, hsl]
      · intro i hiv hni
        apply hlink i hiv
        cases hsg : spans.getD i none with
        | none => rfl
        | some val =>
          exfalso
          have hmono := joinSubstringsPass_mono vec cont spans i (by rw [hsg]; rfl)
          rw [hni] at hmono
          cases hmono
      · exact htgt
      · cases hcyc : hasCycleB cont (joinSubstringsPass vec cont spans) vec.length with
        | false => rfl
        | true =>
          exfalso
          unfold hasCycleB at hcyc
          rw [List.any_eq_true] at hcyc
          obtain ⟨i, hi, hcyc2⟩ := hcyc
          rw [List.any_eq_true] at hcyc2
          obtain ⟨k2, hk2, hbeq⟩ := hcyc2
          rw [beq_iff_eq] at hbeq
          have hold := iterLink_mono cont spans (joinSubstringsPass vec cont spans)
            (fun m hm => joinSubstringsPass_mono vec cont spans m hm) k2 i i hbeq
          have hcyc0 : hasCycleB cont spans vec.length = true := by
            unfold hasCycleB
            rw [List.any_eq_true]
            refine ⟨i, hi, ?_⟩
            rw [List.any_eq_true]
            exact ⟨k2, hk2, beq_iff_eq.mpr hold⟩
          rw [hnc] at hcyc0
          cases hcyc0

/-- C8: whenever the containment-link relation restricted to the ids still
unresolved after the loose-append phase is acyclic, the iterative
containment-resolution phase terminates with every id assigned a resolved
span, and hence the whole build terminates. -/
theorem c8_acyclic_resolution_terminates (v : List Str)
    (hnc : hasCycleB (buildPhases123 v).contained_in (buildPhases123 v).spans
      v.length = false) :
    ∃ b2, (buildPhases123 v).joinSubstrings = some b2 ∧ countNone b2.spans = 0 ∧
      ∃ c, buildSubStr (mkBuilder v) = some c := by
  have hacc1 : AccInv v ((mkBuilder v).findSubstrings).contained_in
      ((mkBuilder v).findSubstrings).spans
      ((mkBuilder v).findSubstrings).index_string := by
    constructor
    · simp [Builder.findSubstrings, mkBuilder]
    · simp [Builder.findSubstrings, mkBuilder]
  have hacc2 := accInv_findPart _ hacc1
  have hacc3 := accInv_joinLoose _ hacc2
  have hsl3 : (buildPhases123 v).spans.length = v.length := hacc3.1
  have hcs : ContSound v (buildPhases123 v).contained_in := contSound_findSubstrings v
  have htgt : ∀ i t s, (buildPhases123 v).contained_in.getD i none = some (t, s) →
      t < v.length := by
    intro i t s h
    exact (hcs i t s (getD_some_getElem? h)).1
  have hlink : ∀ i, i < v.length → (buildPhases123 v).spans.getD i none = none →
      ((buildPhases123 v).contained_in.getD i none).isSome = true := by
    intro i hiv hnone
    cases hg : (buildPhases123 v).contained_in.getD i none with
    | some val => rfl
    | none =>
      exfalso
      have hres := joinLoose_resolves
        (((mkBuilder v).findSubstrings).findPartSubstrings) hacc2.1 i hiv hg
      have hres2 : ((buildPhases123 v).spans.getD i none).isSome = true := hres
      rw [hnone] at hres2
      cases hres2
  obtain ⟨sp2, hsp2⟩ := joinSubstringsLoop_terminates v
    (buildPhases123 v).contained_in (countNone (buildPhases123 v).spans)
    (buildPhases123 v).spans (le_refl _) hsl3 hlink htgt hnc
  have hcnt := joinSubstringsLoop_count0 v (buildPhases123 v).contained_in _ _ _ hsp2
  have hsp3 : joinSubstringsLoop (buildPhases123 v).vec
      (buildPhases123 v).contained_in (countNone (buildPhases123 v).spans)
      (buildPhases123 v).spans = some sp2 := hsp2
  have hjs : (buildPhases123 v).joinSubstrings =
      some { (buildPhases123 v) with spans := sp2 } := by
    unfold Builder.joinSubstrings
    rw [hsp3]
    rfl
  refine ⟨{ (buildPhases123 v) with spans := sp2 }, hjs, hcnt, ?_⟩
  refine ⟨SubStr.mk (sp2.map (fun s => s.getD (0, 0)))
    ((buildPhases123 v).index_string), ?_⟩
  unfold buildSubStr Builder.build_only
  rw [if_neg (show ¬((mkBuilder v).build = true) by simp [mkBuilder])]
  rw [show (mkBuilder v).findSubstrings.findPartSubstrings.joinLooseStrings.joinSubstrings
    = some { (buildPhases123 v) with spans := sp2 } from hjs]
  rfl

/-- Witness for `c8_acyclic_resolution_terminates` on `["cat", "cats"]`,
whose containment link (0 contained in 1) is acyclic. -/
theorem c8_acyclic_resolution_terminates_witness :
    hasCycleB (buildPhases123 [[99, 97, 116], [99, 97, 116, 115]]).contained_in
      (buildPhases123 [[99, 97, 116], [99, 97, 116, 115]]).spans 2 = false ∧
    ∃ b2, (buildPhases123 [[99, 97, 116], [99, 97, 116, 115]]).joinSubstrings
        = some b2 ∧ countNone b2.spans = 0 ∧
      ∃ c, buildSubStr (mkBuilder [[99, 97, 116], [99, 97, 116, 115]]) = some c :=
  ⟨by decide, c8_acyclic_resolution_terminates _ (by decide)⟩
